import Mathlib

/-!
Verification of the period-resolution core of `src/web.py`:
`_parse_hhmm_or_hhmmss`, `normalize_ts` and `resolve_period_for`.

The Python functions are shallowly embedded over `List Char` / `String`.
Times of day are represented as seconds since midnight (`Nat`); Python
`datetime.time` values compare exactly like their seconds-of-midnight
images, so comparisons in `resolve_period_for` are preserved.
`strptime`/`strftime` format matching is embedded by explicit token
splitting, reproducing the field regular expressions of CPython's
`_strptime` (1-2 digit fields with range checks, exactly-4-digit year,
1-6 digit fraction, a literal whitespace in the format matching a
nonempty whitespace run) together with the range validation performed by
the `datetime` constructor (hour 0-23, minute/second 0-59, calendar-valid
day, year at least 1).  Whitespace is modelled by the six ASCII
whitespace characters.  `strftime "%Y"` output follows the deployment
platform's C library (glibc): the year is printed with no zero padding.
-/

namespace Aribaba

/-- ASCII decimal digit (code points 48-57), as matched by the `\d`
classes of the strptime field patterns on these inputs. -/
def isDigit (c : Char) : Bool := 48 ≤ c.toNat && c.toNat ≤ 57

/-- ASCII whitespace: the characters stripped by `str.strip` and matched
by `\s` in strptime patterns. -/
def isSpace (c : Char) : Bool :=
  c = ' ' || c = '\t' || c = '\n' || c = '\r' || c = '\x0b' || c = '\x0c'

/-- Decimal value of a digit string. -/
def decVal (l : List Char) : Nat := l.foldl (fun a c => 10 * a + (c.toNat - 48)) 0

/-- Python `str.strip()`: drop whitespace from both ends. -/
def pyStrip (l : List Char) : List Char :=
  ((l.dropWhile isSpace).reverse.dropWhile isSpace).reverse

/-- Python `str.split(sep)` for a one-character separator: every
occurrence of `sep` separates fields, empty fields included
(`"".split(":") = [""]`, `":".split(":") = ["", ""]`). -/
def splitOnChar (sep : Char) : List Char → List (List Char)
  | [] => [[]]
  | c :: cs =>
    if c = sep then [] :: splitOnChar sep cs
    else
      match splitOnChar sep cs with
      | [] => [[c]]
      | t :: ts => (c :: t) :: ts

/-- Python `str.zfill w`: left-pad with `'0'` to width `w`, keeping a
leading sign in front of the padding. -/
def zfill (w : Nat) (l : List Char) : List Char :=
  match l with
  | c :: cs =>
    if c = '+' || c = '-' then c :: (List.replicate (w - 1 - cs.length) '0' ++ cs)
    else List.replicate (w - l.length) '0' ++ l
  | [] => List.replicate w '0'

/-- A 1-2 digit strptime field whose value `datetime` accepts in
`[lo, hi]`; returns the value.  (The strptime field regex accepts one or
two digits; out-of-range two-digit values are rejected either by the
regex or by the `datetime`/`time` constructor, both surfacing as the
same caught `ValueError`.) -/
def tokRange (lo hi : Nat) (l : List Char) : Option Nat :=
  if (l.length = 1 || l.length = 2) && l.all isDigit
      && lo ≤ decVal l && decVal l ≤ hi then
    some (decVal l)
  else none

/-- The `%Y` field: exactly four digits; `datetime` requires year ≥ 1. -/
def tok4Year (l : List Char) : Option Nat :=
  if l.length = 4 && l.all isDigit && 1 ≤ decVal l then some (decVal l) else none

/-- Seconds since midnight of a time-of-day. -/
def timeOfHMS (h m s : Nat) : Nat := h * 3600 + m * 60 + s

/-- The `%H:%M` format: hour and minute fields separated by a literal
colon, seconds implicitly zero. -/
def matchTimeHM (l : List Char) : Option (Nat × Nat × Nat) :=
  match splitOnChar ':' l with
  | [hTok, miTok] =>
    match tokRange 0 23 hTok, tokRange 0 59 miTok with
    | some h, some mi => some (h, mi, 0)
    | _, _ => none
  | _ => none

/-- The `%H:%M:%S` format. -/
def matchTimeHMS (l : List Char) : Option (Nat × Nat × Nat) :=
  match splitOnChar ':' l with
  | [hTok, miTok, sTok] =>
    match tokRange 0 23 hTok, tokRange 0 59 miTok, tokRange 0 59 sTok with
    | some h, some mi, some s => some (h, mi, s)
    | _, _, _ => none
  | _ => none

/-- `strptime(s, "%H:%M").time()` as seconds since midnight. -/
def matchHM (l : List Char) : Option Nat :=
  (matchTimeHM l).map (fun v => timeOfHMS v.1 v.2.1 v.2.2)

/-- `strptime(s, "%H:%M:%S").time()` as seconds since midnight. -/
def matchHMS (l : List Char) : Option Nat :=
  (matchTimeHMS l).map (fun v => timeOfHMS v.1 v.2.1 v.2.2)

/-- The body of `_parse_hhmm_or_hhmmss` after the initial
`s = (s or "").strip()`: try `%H:%M`, then `%H:%M:%S`, then — when the
text splits at `:` into exactly two fields — zero-fill each field to
two characters and retry `%H:%M`. -/
def parseCore (l : List Char) : Option Nat :=
  match matchHM l with
  | some t => some t
  | none =>
    match matchHMS l with
    | some t => some t
    | none =>
      match splitOnChar ':' l with
      | [h, m] => matchHM (zfill 2 h ++ ':' :: zfill 2 m)
      | _ => none

/-- `_parse_hhmm_or_hhmmss` (src/web.py lines 93-107).  Input `none`
models Python `None` (`s or ""` turns it into the empty string); result
`none` models the raised `ValueError` (the spec's `FormatError`), in
both the explicit `raise` and the uncaught `strptime` failure of the
zfill branch. -/
def parse_hhmm_or_hhmmss (x : Option String) : Option Nat :=
  parseCore (pyStrip (x.getD "").data)

/-! ### normalize_ts -/

/-- Days in a month of the proleptic Gregorian calendar, as validated by
the `datetime` constructor. -/
def daysInMonth (y m : Nat) : Nat :=
  if m = 2 then
    (if (y % 4 = 0 && !(y % 100 = 0)) || y % 400 = 0 then 29 else 28)
  else if m = 4 || m = 6 || m = 9 || m = 11 then 30 else 31

/-- The `%Y-%m-%d` part: year, month, day fields with calendar
validation. -/
def matchDate (l : List Char) : Option (Nat × Nat × Nat) :=
  match splitOnChar '-' l with
  | [yTok, moTok, dTok] =>
    match tok4Year yTok, tokRange 1 12 moTok with
    | some y, some mo =>
      match tokRange 1 (daysInMonth y mo) dTok with
      | some d => some (y, mo, d)
      | none => none
    | _, _ => none
  | _ => none

/-- The `%H:%M:%S.%f` part: like `%H:%M:%S` with a 1-6 digit fraction
after a literal dot; the fraction's value is not kept (it is discarded
by the `strftime` that follows in `normalize_ts`). -/
def matchTimeHMSF (l : List Char) : Option (Nat × Nat × Nat) :=
  match splitOnChar ':' l with
  | [hTok, miTok, sf] =>
    match splitOnChar '.' sf with
    | [sTok, fTok] =>
      if 1 ≤ fTok.length && fTok.length ≤ 6 && fTok.all isDigit then
        match tokRange 0 23 hTok, tokRange 0 59 miTok, tokRange 0 59 sTok with
        | some h, some mi, some s => some (h, mi, s)
        | _, _, _ => none
      else none
    | _ => none
  | _ => none

/-- Split a datetime string at the literal whitespace of the format:
the date part is the maximal whitespace-free prefix, then a nonempty
whitespace run (the format's literal space compiles to `\s+`), then a
whitespace-free time part. -/
def splitOnWs (l : List Char) : Option (List Char × List Char) :=
  let d := l.takeWhile (fun c => !(isSpace c))
  let r := l.dropWhile (fun c => !(isSpace c))
  let w := r.takeWhile isSpace
  let t := r.dropWhile isSpace
  if !w.isEmpty && !t.isEmpty && t.all (fun c => !(isSpace c)) then some (d, t)
  else none

/-- `strptime(l, "%Y-%m-%d " ++ timeFmt)`: date part, whitespace, time
part matched by `timeMatcher`. -/
def matchDT (timeMatcher : List Char → Option (Nat × Nat × Nat)) (l : List Char) :
    Option (Nat × Nat × Nat × Nat × Nat × Nat) :=
  match splitOnWs l with
  | some (dPart, tPart) =>
    match matchDate dPart, timeMatcher tPart with
    | some (y, mo, d), some (h, mi, s) => some (y, mo, d, h, mi, s)
    | _, _ => none
  | none => none

/-- Two-digit zero-padded decimal (strftime `%m`, `%d`, `%H`, `%M`,
`%S` on in-range values). -/
def pad2 (n : Nat) : List Char := [Nat.digitChar (n / 10), Nat.digitChar (n % 10)]

/-- Four-digit zero-padded decimal. -/
def pad4 (n : Nat) : List Char :=
  [Nat.digitChar (n / 1000), Nat.digitChar (n / 100 % 10),
   Nat.digitChar (n / 10 % 10), Nat.digitChar (n % 10)]

/-- strftime `%Y` as CPython renders it on the deployment platform
(glibc `strftime`): the year as a plain decimal number with no zero
padding (`999` for year 999, `1000` and above four digits).  Written
for the reachable range `y ≤ 9999` (the `%Y` input field is exactly
four digits). -/
def fmtYear (y : Nat) : List Char :=
  if y < 10 then [Nat.digitChar y]
  else if y < 100 then pad2 y
  else if y < 1000 then
    [Nat.digitChar (y / 100), Nat.digitChar (y / 10 % 10), Nat.digitChar (y % 10)]
  else pad4 y

/-- `dt.strftime("%Y-%m-%d %H:%M:%S")`: the output string. -/
def fmtDT : Nat × Nat × Nat × Nat × Nat × Nat → List Char
  | (y, mo, d, h, mi, s) =>
    fmtYear y ++ '-' :: pad2 mo ++ '-' :: pad2 d ++ ' ' ::
      pad2 h ++ ':' :: pad2 mi ++ ':' :: pad2 s

/-- Modelled from the spec: the canonical form `YYYY-MM-DD HH:MM:SS`
that §4.2 promises, with every field zero-padded, the year to four
digits.  Used to compare the promised output with the one the code
produces. -/
def canonicalDT : Nat × Nat × Nat × Nat × Nat × Nat → List Char
  | (y, mo, d, h, mi, s) =>
    pad4 y ++ '-' :: pad2 mo ++ '-' :: pad2 d ++ ' ' ::
      pad2 h ++ ':' :: pad2 mi ++ ':' :: pad2 s

/-- `ts_input.strip().replace('T', ' ')`. -/
def preprocess (l : List Char) : List Char :=
  (pyStrip l).map (fun c => if c = 'T' then ' ' else c)

/-- `normalize_ts` (src/web.py lines 159-170).  `none` models Python
`None`, both as input (absent) and output (soft failure). -/
def normalize_ts (x : Option String) : Option String :=
  match x with
  | none => none
  | some s =>
    if s = "" then none
    else
      let l := preprocess s.data
      match matchDT matchTimeHM l with
      | some v => some (String.mk (fmtDT v))
      | none =>
        match matchDT matchTimeHMS l with
        | some v => some (String.mk (fmtDT v))
        | none =>
          match matchDT matchTimeHMSF l with
          | some v => some (String.mk (fmtDT v))
          | none => none

/-! ### resolve_period_for -/

/-- One row of the loaded timetable: `{"period": .., "start": .., "end": ..}`
with the two times already parsed (seconds since midnight). -/
structure PeriodRec where
  period : Nat
  start : Nat
  «end» : Nat
deriving DecidableEq, Repr

/-- The first containment loop of `resolve_period_for`:
`for rec in ttable: if rec["start"] <= t < rec["end"]: return rec`. -/
def scanContain (t : Nat) : List PeriodRec → Option PeriodRec
  | [] => none
  | r :: rs =>
    if r.start ≤ t ∧ t < r.«end» then some r else scanContain t rs

/-- The gap loop of `resolve_period_for`:
`for i in range(len(ttable)-1): if ttable[i]["end"] <= t < ttable[i+1]["start"]: return ttable[i+1]`. -/
def scanGap (t : Nat) : List PeriodRec → Option PeriodRec
  | a :: b :: rest =>
    if a.«end» ≤ t ∧ t < b.start then some b else scanGap t (b :: rest)
  | _ => none

/-- `resolve_period_for` (src/web.py lines 137-156).  The timetable that
the Python function loads from the database inside the call is passed
as an argument; `t` is `ts_dt.time()` as seconds since midnight.
`none` models Python `None` (the absence value for an empty
timetable). -/
def resolve_period_for (t : Nat) : List PeriodRec → Option PeriodRec
  | [] => none
  | first :: rest =>
    match scanContain t (first :: rest) with
    | some r => some r
    | none =>
      if t < first.start then some first
      else if ((first :: rest).getLast (List.cons_ne_nil first rest)).«end» ≤ t then
        some ((first :: rest).getLast (List.cons_ne_nil first rest))
      else
        match scanGap t (first :: rest) with
        | some r => some r
        | none => some ((first :: rest).getLast (List.cons_ne_nil first rest))

/-- A well-formed timetable in the sense of the spec: every interval
has `start < end`, and the intervals are sorted ascending and
non-overlapping (for half-open intervals: each interval ends no later
than any later interval starts). -/
def WellFormed (l : List PeriodRec) : Prop :=
  (∀ i : Fin l.length, (l.get i).start < (l.get i).«end») ∧
  ∀ i j : Fin l.length, (i : Nat) < (j : Nat) → (l.get i).«end» ≤ (l.get j).start

instance wellFormedDecidable (l : List PeriodRec) : Decidable (WellFormed l) :=
  inferInstanceAs (Decidable ((∀ i : Fin l.length, (l.get i).start < (l.get i).«end») ∧
    ∀ i j : Fin l.length, (i : Nat) < (j : Nat) → (l.get i).«end» ≤ (l.get j).start))

/-! ### Spec-side shape predicates

These state, independently of the parsing code above, what it means for
a text to have one of the shapes the spec describes; the claims compare
the parsers against them. -/

/-- A 1-2 digit field whose value lies in `[lo, hi]`. -/
def RTok (lo hi : Nat) (l : List Char) : Prop :=
  (l.length = 1 ∨ l.length = 2) ∧ (∀ c ∈ l, isDigit c = true) ∧
    lo ≤ decVal l ∧ decVal l ≤ hi

/-- An exactly-4-digit year field with value at least 1. -/
def YearTok (l : List Char) : Prop :=
  l.length = 4 ∧ (∀ c ∈ l, isDigit c = true) ∧ 1 ≤ decVal l

/-- A 1-6 digit fractional-second field. -/
def FracTok (l : List Char) : Prop :=
  1 ≤ l.length ∧ l.length ≤ 6 ∧ ∀ c ∈ l, isDigit c = true

/-- A field of at most 2 digits (possibly empty) whose value lies below
`hi`; after zero-filling to width 2 this is exactly what the zfill
fallback of `_parse_hhmm_or_hhmmss` accepts. -/
def ZTok (hi : Nat) (l : List Char) : Prop :=
  l.length ≤ 2 ∧ (∀ c ∈ l, isDigit c = true) ∧ decVal l ≤ hi

/-- The spec's accepted time shapes: `hour:minute` or
`hour:minute:second`, hour/minute/second 1-2 digits, in range. -/
def TimeShape (l : List Char) : Prop :=
  (∃ h m, l = h ++ ':' :: m ∧ RTok 0 23 h ∧ RTok 0 59 m) ∨
  (∃ h m s, l = h ++ ':' :: (m ++ ':' :: s) ∧ RTok 0 23 h ∧ RTok 0 59 m ∧ RTok 0 59 s)

/-- What `_parse_hhmm_or_hhmmss` actually accepts: the spec's time
shapes, plus two-component texts whose components may also be empty
(the zfill fallback pads each side of the single `:` to two digits, so
`:`, `5:` and `:5` are accepted as `00:00`, `05:00`, `00:05`). -/
def AcceptedTime (l : List Char) : Prop :=
  (∃ h m s, l = h ++ ':' :: (m ++ ':' :: s) ∧ RTok 0 23 h ∧ RTok 0 59 m ∧ RTok 0 59 s) ∨
  (∃ h m, l = h ++ ':' :: m ∧ ZTok 23 h ∧ ZTok 59 m)

/-- A nonempty run of whitespace, as matched by the compiled literal
space of a strptime format. -/
def WsRun (w : List Char) : Prop := w ≠ [] ∧ ∀ c ∈ w, isSpace c = true

/-- The shape `%Y-%m-%d` with the calendar validation done by the
`datetime` constructor, together with the field values. -/
def DateShape (l : List Char) (y mo d : Nat) : Prop :=
  ∃ yTok moTok dTok, l = yTok ++ '-' :: (moTok ++ '-' :: dTok) ∧
    YearTok yTok ∧ RTok 1 12 moTok ∧ RTok 1 (daysInMonth y mo) dTok ∧
    y = decVal yTok ∧ mo = decVal moTok ∧ d = decVal dTok

/-- The time part of the first accepted datetime format (`%H:%M`). -/
def TimeHMShape (l : List Char) (h mi : Nat) : Prop :=
  ∃ hTok miTok, l = hTok ++ ':' :: miTok ∧ RTok 0 23 hTok ∧ RTok 0 59 miTok ∧
    h = decVal hTok ∧ mi = decVal miTok

/-- The time part of the second accepted datetime format (`%H:%M:%S`). -/
def TimeHMSShape (l : List Char) (h mi s : Nat) : Prop :=
  ∃ hTok miTok sTok, l = hTok ++ ':' :: (miTok ++ ':' :: sTok) ∧
    RTok 0 23 hTok ∧ RTok 0 59 miTok ∧ RTok 0 59 sTok ∧
    h = decVal hTok ∧ mi = decVal miTok ∧ s = decVal sTok

/-- The time part of the third accepted datetime format
(`%H:%M:%S.%f`). -/
def TimeHMSFShape (l : List Char) (h mi s : Nat) : Prop :=
  ∃ hTok miTok sTok fTok, l = hTok ++ ':' :: (miTok ++ ':' :: (sTok ++ '.' :: fTok)) ∧
    RTok 0 23 hTok ∧ RTok 0 59 miTok ∧ RTok 0 59 sTok ∧ FracTok fTok ∧
    h = decVal hTok ∧ mi = decVal miTok ∧ s = decVal sTok

/-- A text matching one of the three accepted datetime formats, with
the six field values it denotes (seconds 0 for the first format, the
fraction ignored for the third). -/
def DTShape (l : List Char) (y mo d h mi s : Nat) : Prop :=
  ∃ dp w tp, l = dp ++ w ++ tp ∧ WsRun w ∧ DateShape dp y mo d ∧
    ((TimeHMShape tp h mi ∧ s = 0) ∨ TimeHMSShape tp h mi s ∨ TimeHMSFShape tp h mi s)

instance rtokDecidable (lo hi : Nat) (l : List Char) : Decidable (RTok lo hi l) :=
  inferInstanceAs (Decidable ((l.length = 1 ∨ l.length = 2) ∧
    (∀ c ∈ l, isDigit c = true) ∧ lo ≤ decVal l ∧ decVal l ≤ hi))

instance yearTokDecidable (l : List Char) : Decidable (YearTok l) :=
  inferInstanceAs (Decidable (l.length = 4 ∧ (∀ c ∈ l, isDigit c = true) ∧ 1 ≤ decVal l))

instance fracTokDecidable (l : List Char) : Decidable (FracTok l) :=
  inferInstanceAs (Decidable (1 ≤ l.length ∧ l.length ≤ 6 ∧ ∀ c ∈ l, isDigit c = true))

instance ztokDecidable (hi : Nat) (l : List Char) : Decidable (ZTok hi l) :=
  inferInstanceAs (Decidable (l.length ≤ 2 ∧ (∀ c ∈ l, isDigit c = true) ∧ decVal l ≤ hi))

instance wsRunDecidable (w : List Char) : Decidable (WsRun w) :=
  inferInstanceAs (Decidable (w ≠ [] ∧ ∀ c ∈ w, isSpace c = true))

/-! ## The scanning loops of `resolve_period_for` -/

theorem scanContain_eq_none {t : Nat} {l : List PeriodRec} :
    scanContain t l = none ↔ ∀ r ∈ l, ¬(r.start ≤ t ∧ t < r.«end») := by
  induction l with
  | nil => simp [scanContain]
  | cons r rs ih =>
    by_cases h : r.start ≤ t ∧ t < r.«end»
    · simp [scanContain, h]
    · simp only [scanContain, if_neg h]
      rw [ih]
      constructor
      · rintro ha r' hr'
        rcases List.mem_cons.mp hr' with rfl | hmem
        · exact h
        · exact ha r' hmem
      · intro ha r' hr'
        exact ha r' (List.mem_cons_of_mem r hr')

theorem scanContain_mem {t : Nat} {l : List PeriodRec} {r : PeriodRec}
    (h : scanContain t l = some r) : r ∈ l := by
  induction l with
  | nil => simp [scanContain] at h
  | cons a rs ih =>
    by_cases hc : a.start ≤ t ∧ t < a.«end»
    · simp only [scanContain, if_pos hc, Option.some.injEq] at h
      simp [h.symm]
    · simp only [scanContain, if_neg hc] at h
      exact List.mem_cons_of_mem a (ih h)

theorem scanContain_first {t : Nat} (l : List PeriodRec) (i : Nat) (hi : i < l.length)
    (hs : (l.get ⟨i, hi⟩).start ≤ t) (he : t < (l.get ⟨i, hi⟩).«end»)
    (hmin : ∀ j (hj : j < i),
      ¬((l.get ⟨j, hj.trans hi⟩).start ≤ t ∧ t < (l.get ⟨j, hj.trans hi⟩).«end»)) :
    scanContain t l = some (l.get ⟨i, hi⟩) := by
  induction l generalizing i with
  | nil => simp at hi
  | cons r rs ih =>
    cases i with
    | zero =>
      exact if_pos ⟨hs, he⟩
    | succ k =>
      have h0 : ¬(r.start ≤ t ∧ t < r.«end») := hmin 0 (Nat.succ_pos k)
      have hk : k < rs.length := Nat.lt_of_succ_lt_succ hi
      show (if r.start ≤ t ∧ t < r.«end» then some r else scanContain t rs) = _
      rw [if_neg h0]
      exact ih k hk hs he (fun j hj => hmin (j + 1) (Nat.succ_lt_succ hj))

theorem scanGap_mem {t : Nat} {l : List PeriodRec} {r : PeriodRec}
    (h : scanGap t l = some r) : r ∈ l := by
  induction l with
  | nil => simp [scanGap] at h
  | cons a rs ih =>
    cases rs with
    | nil => simp [scanGap] at h
    | cons b rest =>
      by_cases hc : a.«end» ≤ t ∧ t < b.start
      · simp only [scanGap, if_pos hc, Option.some.injEq] at h
        simp [h.symm]
      · simp only [scanGap, if_neg hc] at h
        exact List.mem_cons_of_mem a (ih h)

theorem scanGap_first {t : Nat} (l : List PeriodRec) (i : Nat) (hi1 : i + 1 < l.length)
    (h1 : (l.get ⟨i, Nat.lt_of_succ_lt hi1⟩).«end» ≤ t)
    (h2 : t < (l.get ⟨i + 1, hi1⟩).start)
    (hmin : ∀ j (hj1 : j + 1 < l.length), j < i →
      ¬((l.get ⟨j, Nat.lt_of_succ_lt hj1⟩).«end» ≤ t ∧ t < (l.get ⟨j + 1, hj1⟩).start)) :
    scanGap t l = some (l.get ⟨i + 1, hi1⟩) := by
  induction l generalizing i with
  | nil => simp at hi1
  | cons a rs ih =>
    cases rs with
    | nil => simp at hi1
    | cons b rest =>
      cases i with
      | zero =>
        exact if_pos ⟨h1, h2⟩
      | succ k =>
        have h0 : ¬(a.«end» ≤ t ∧ t < b.start) := by
          have hb : (1 : Nat) < (a :: b :: rest).length := by simp
          exact hmin 0 hb (Nat.succ_pos k)
        show (if a.«end» ≤ t ∧ t < b.start then some b else scanGap t (b :: rest)) = _
        rw [if_neg h0]
        have hi1' : k + 1 < (b :: rest).length := by
          simp only [List.length_cons] at hi1 ⊢; omega
        exact ih k hi1' h1 h2 (fun j hj1 hj => by
          have hj1' : (j + 1) + 1 < (a :: b :: rest).length := by
            simp only [List.length_cons] at hj1 ⊢; omega
          exact hmin (j + 1) hj1' (Nat.succ_lt_succ hj))

/-! ## Well-formedness consequences -/

theorem wf_start_lt_end {l : List PeriodRec} (hwf : WellFormed l) {i : Nat}
    (hi : i < l.length) : (l.get ⟨i, hi⟩).start < (l.get ⟨i, hi⟩).«end» :=
  hwf.1 ⟨i, hi⟩

theorem wf_end_le_start {l : List PeriodRec} (hwf : WellFormed l) {i j : Nat}
    (hi : i < l.length) (hj : j < l.length) (hij : i < j) :
    (l.get ⟨i, hi⟩).«end» ≤ (l.get ⟨j, hj⟩).start :=
  hwf.2 ⟨i, hi⟩ ⟨j, hj⟩ hij

theorem wf_start_mono {l : List PeriodRec} (hwf : WellFormed l) {i j : Nat}
    (hi : i < l.length) (hj : j < l.length) (hij : i ≤ j) :
    (l.get ⟨i, hi⟩).start ≤ (l.get ⟨j, hj⟩).start := by
  rcases Nat.eq_or_lt_of_le hij with rfl | hlt
  · exact le_refl _
  · have h1 := wf_start_lt_end hwf hi
    have h2 := wf_end_le_start hwf hi hj hlt
    omega

theorem wf_end_mono {l : List PeriodRec} (hwf : WellFormed l) {i j : Nat}
    (hi : i < l.length) (hj : j < l.length) (hij : i ≤ j) :
    (l.get ⟨i, hi⟩).«end» ≤ (l.get ⟨j, hj⟩).«end» := by
  rcases Nat.eq_or_lt_of_le hij with rfl | hlt
  · exact le_refl _
  · have h1 := wf_start_lt_end hwf hj
    have h2 := wf_end_le_start hwf hi hj hlt
    omega

/-! ## Core facts about `resolve_period_for` -/

theorem resolve_of_scanContain {t : Nat} {l : List PeriodRec} {r : PeriodRec}
    (h : scanContain t l = some r) : resolve_period_for t l = some r := by
  cases l with
  | nil => simp [scanContain] at h
  | cons f rest => simp [resolve_period_for, h]

/-- Containment wins: if interval `i` contains `t` and the timetable is
well-formed, the first containment scan returns interval `i`. -/
theorem resolve_contain_core (l : List PeriodRec) (hwf : WellFormed l) (t i : Nat)
    (hi : i < l.length) (hs : (l.get ⟨i, hi⟩).start ≤ t)
    (he : t < (l.get ⟨i, hi⟩).«end») :
    resolve_period_for t l = some (l.get ⟨i, hi⟩) := by
  apply resolve_of_scanContain
  apply scanContain_first l i hi hs he
  intro j hj hc
  obtain ⟨hc1, hc2⟩ := hc
  have h2 := wf_end_le_start hwf (hj.trans hi) hi hj
  omega

/-- Gap resolution: if `t` lies in `[end i, start (i+1))`, the resolver
returns interval `i+1`. -/
theorem resolve_gap_core (l : List PeriodRec) (hwf : WellFormed l) (t i : Nat)
    (hi1 : i + 1 < l.length)
    (h1 : (l.get ⟨i, Nat.lt_of_succ_lt hi1⟩).«end» ≤ t)
    (h2 : t < (l.get ⟨i + 1, hi1⟩).start) :
    resolve_period_for t l = some (l.get ⟨i + 1, hi1⟩) := by
  cases l with
  | nil => simp at hi1
  | cons f rest =>
    have hilt : i < (f :: rest).length := Nat.lt_of_succ_lt hi1
    have hlen : 0 < (f :: rest).length := by simp
    have hsub : (f :: rest).length - 1 < (f :: rest).length := by omega
    have hsc : scanContain t (f :: rest) = none := by
      rw [scanContain_eq_none]
      intro r hr hc
      rcases List.mem_iff_get.mp hr with ⟨n, rfl⟩
      obtain ⟨nv, hn⟩ := n
      obtain ⟨hc1, hc2⟩ := hc
      rcases Nat.lt_or_ge nv (i + 1) with hni | hni
      · have := wf_end_mono hwf hn hilt (Nat.lt_succ_iff.mp hni)
        omega
      · have := wf_start_mono hwf hi1 hn hni
        omega
    have ha1 : f.start ≤ ((f :: rest).get ⟨i, hilt⟩).start :=
      wf_start_mono hwf hlen hilt (Nat.zero_le _)
    have ha2 := wf_start_lt_end hwf hilt
    have hnb : ¬ t < f.start := by omega
    have hb1 : ((f :: rest).get ⟨i + 1, hi1⟩).start ≤
        ((f :: rest).get ⟨(f :: rest).length - 1, hsub⟩).start :=
      wf_start_mono hwf hi1 hsub (by omega)
    have hb2 := wf_start_lt_end hwf hsub
    have hlast : (f :: rest).getLast (List.cons_ne_nil f rest) =
        (f :: rest).get ⟨(f :: rest).length - 1, hsub⟩ := List.getLast_eq_get _ _
    have hna : ¬ ((f :: rest).getLast (List.cons_ne_nil f rest)).«end» ≤ t := by
      rw [hlast]; omega
    have hsg : scanGap t (f :: rest) = some ((f :: rest).get ⟨i + 1, hi1⟩) := by
      apply scanGap_first (f :: rest) i hi1 h1 h2
      intro j hj1 hj hcj
      obtain ⟨hcj1, hcj2⟩ := hcj
      have hx : ((f :: rest).get ⟨j + 1, hj1⟩).start ≤ ((f :: rest).get ⟨i, hilt⟩).start :=
        wf_start_mono hwf hj1 hilt (by omega)
      omega
    simp [resolve_period_for, hsc, hnb, hna, hsg]

/-! ## Claims about `resolve_period_for` -/

/-- C1: for a well-formed timetable and a timestamp whose time-of-day
`t` satisfies `start ≤ t < end` for interval `i`, `resolve_period_for`
returns interval `i` (found by the ascending containment scan). -/
theorem resolve_containing (l : List PeriodRec) (hwf : WellFormed l) (t i : Nat)
    (hi : i < l.length) (hs : (l.get ⟨i, hi⟩).start ≤ t)
    (he : t < (l.get ⟨i, hi⟩).«end») :
    resolve_period_for t l = some (l.get ⟨i, hi⟩) :=
  resolve_contain_core l hwf t i hi hs he

theorem resolve_containing_witness :
    WellFormed [⟨1, 10, 20⟩, ⟨2, 30, 40⟩] ∧ (1 : Nat) < 2 ∧ (10 : Nat) ≤ 35 ∧ (35 : Nat) < 40 ∧
    resolve_period_for 35 [⟨1, 10, 20⟩, ⟨2, 30, 40⟩] = some (⟨2, 30, 40⟩ : PeriodRec) :=
  ⟨by decide, by decide, by decide, by decide,
    resolve_containing [⟨1, 10, 20⟩, ⟨2, 30, 40⟩] (by decide) 35 1 (by decide)
      (by decide) (by decide)⟩

/-- C2: for a well-formed timetable, a timestamp whose time-of-day
equals interval `i`'s `end` resolves to interval `i+1` whenever `i+1`
exists — both when `i+1` starts exactly at that instant (containment)
and when a gap separates the two intervals (gap attribution). -/
theorem resolve_end_boundary (l : List PeriodRec) (hwf : WellFormed l) (t i : Nat)
    (hi1 : i + 1 < l.length)
    (ht : t = (l.get ⟨i, Nat.lt_of_succ_lt hi1⟩).«end») :
    resolve_period_for t l = some (l.get ⟨i + 1, hi1⟩) := by
  have hilt : i < l.length := Nat.lt_of_succ_lt hi1
  by_cases hcase : (l.get ⟨i + 1, hi1⟩).start ≤ t
  · have h1 := wf_end_le_start hwf hilt hi1 (Nat.lt_succ_self i)
    have h2 := wf_start_lt_end hwf hi1
    exact resolve_contain_core l hwf t (i + 1) hi1 hcase (by omega)
  · exact resolve_gap_core l hwf t i hi1 (by omega) (by omega)

theorem resolve_end_boundary_witness :
    WellFormed [⟨1, 10, 20⟩, ⟨2, 20, 30⟩, ⟨3, 40, 50⟩] ∧
    resolve_period_for 20 [⟨1, 10, 20⟩, ⟨2, 20, 30⟩, ⟨3, 40, 50⟩] =
      some (⟨2, 20, 30⟩ : PeriodRec) ∧
    resolve_period_for 30 [⟨1, 10, 20⟩, ⟨2, 20, 30⟩, ⟨3, 40, 50⟩] =
      some (⟨3, 40, 50⟩ : PeriodRec) :=
  ⟨by decide,
    resolve_end_boundary [⟨1, 10, 20⟩, ⟨2, 20, 30⟩, ⟨3, 40, 50⟩] (by decide) 20 0
      (by decide) (by decide),
    resolve_end_boundary [⟨1, 10, 20⟩, ⟨2, 20, 30⟩, ⟨3, 40, 50⟩] (by decide) 30 1
      (by decide) (by decide)⟩

/-- C3: for a well-formed timetable, a time-of-day strictly between
interval `i`'s `end` and interval `i+1`'s `start` (a break covered by
no interval) resolves to the upcoming interval `i+1`. -/
theorem resolve_in_gap (l : List PeriodRec) (hwf : WellFormed l) (t i : Nat)
    (hi1 : i + 1 < l.length)
    (hg1 : (l.get ⟨i, Nat.lt_of_succ_lt hi1⟩).«end» < t)
    (hg2 : t < (l.get ⟨i + 1, hi1⟩).start) :
    resolve_period_for t l = some (l.get ⟨i + 1, hi1⟩) :=
  resolve_gap_core l hwf t i hi1 (Nat.le_of_lt hg1) hg2

theorem resolve_in_gap_witness :
    WellFormed [⟨1, 31800, 37800⟩, ⟨2, 38100, 44100⟩, ⟨3, 46800, 52800⟩] ∧
    resolve_period_for 37920 [⟨1, 31800, 37800⟩, ⟨2, 38100, 44100⟩, ⟨3, 46800, 52800⟩] =
      some (⟨2, 38100, 44100⟩ : PeriodRec) :=
  ⟨by decide,
    resolve_in_gap [⟨1, 31800, 37800⟩, ⟨2, 38100, 44100⟩, ⟨3, 46800, 52800⟩]
      (by decide) 37920 0 (by decide) (by decide) (by decide)⟩

/-- C4: for a non-empty well-formed timetable, a time-of-day strictly
before the first interval's start resolves to the first interval. -/
theorem resolve_before_first (l : List PeriodRec) (hwf : WellFormed l) (hne : l ≠ [])
    (t : Nat) (ht : t < (l.head hne).start) :
    resolve_period_for t l = some (l.head hne) := by
  cases l with
  | nil => exact absurd rfl hne
  | cons f rest =>
    have hlen : 0 < (f :: rest).length := by simp
    have ht0 : t < ((f :: rest).get ⟨0, hlen⟩).start := ht
    have hsc : scanContain t (f :: rest) = none := by
      rw [scanContain_eq_none]
      intro r hr hc
      rcases List.mem_iff_get.mp hr with ⟨n, rfl⟩
      obtain ⟨nv, hn⟩ := n
      obtain ⟨hc1, hc2⟩ := hc
      have := wf_start_mono hwf hlen hn (Nat.zero_le nv)
      omega
    have ht' : t < f.start := ht
    simp [resolve_period_for, hsc, ht']

theorem resolve_before_first_witness :
    WellFormed [⟨1, 31800, 37800⟩, ⟨2, 38100, 44100⟩, ⟨3, 46800, 52800⟩] ∧
    resolve_period_for 28800 [⟨1, 31800, 37800⟩, ⟨2, 38100, 44100⟩, ⟨3, 46800, 52800⟩] =
      some (⟨1, 31800, 37800⟩ : PeriodRec) :=
  ⟨by decide,
    resolve_before_first [⟨1, 31800, 37800⟩, ⟨2, 38100, 44100⟩, ⟨3, 46800, 52800⟩]
      (by decide) (by decide) 28800 (by decide)⟩

/-- C5: for a non-empty well-formed timetable, a time-of-day at or
after the last interval's end resolves to the last interval. -/
theorem resolve_after_last (l : List PeriodRec) (hwf : WellFormed l) (hne : l ≠ [])
    (t : Nat) (ht : (l.getLast hne).«end» ≤ t) :
    resolve_period_for t l = some (l.getLast hne) := by
  cases l with
  | nil => exact absurd rfl hne
  | cons f rest =>
    have hlen : 0 < (f :: rest).length := by simp
    have hsub : (f :: rest).length - 1 < (f :: rest).length := by omega
    have hlast : (f :: rest).getLast hne =
        (f :: rest).get ⟨(f :: rest).length - 1, hsub⟩ := List.getLast_eq_get _ _
    rw [hlast] at ht
    have hsc : scanContain t (f :: rest) = none := by
      rw [scanContain_eq_none]
      intro r hr hc
      rcases List.mem_iff_get.mp hr with ⟨n, rfl⟩
      obtain ⟨nv, hn⟩ := n
      obtain ⟨hc1, hc2⟩ := hc
      have := wf_end_mono hwf hn hsub (by omega)
      omega
    have ha1 : f.start ≤ ((f :: rest).get ⟨(f :: rest).length - 1, hsub⟩).start :=
      wf_start_mono hwf hlen hsub (Nat.zero_le _)
    have ha2 := wf_start_lt_end hwf hsub
    have hnb : ¬ t < f.start := by omega
    have hcond : ((f :: rest).getLast (List.cons_ne_nil f rest)).«end» ≤ t := by
      rw [List.getLast_eq_get]; exact ht
    simp [resolve_period_for, hsc, hnb, hcond]

theorem resolve_after_last_witness :
    WellFormed [⟨1, 31800, 37800⟩, ⟨2, 38100, 44100⟩, ⟨3, 46800, 52800⟩] ∧
    resolve_period_for 54000 [⟨1, 31800, 37800⟩, ⟨2, 38100, 44100⟩, ⟨3, 46800, 52800⟩] =
      some (⟨3, 46800, 52800⟩ : PeriodRec) :=
  ⟨by decide,
    resolve_after_last [⟨1, 31800, 37800⟩, ⟨2, 38100, 44100⟩, ⟨3, 46800, 52800⟩]
      (by decide) (by decide) 54000 (by decide)⟩

/-- C6: `resolve_period_for` returns the absence value exactly for the
empty timetable; for a non-empty timetable it always returns some
interval of the timetable (the final fallback makes it total). -/
theorem resolve_none_iff (t : Nat) (l : List PeriodRec) :
    (resolve_period_for t l = none ↔ l = []) ∧
    (l ≠ [] → ∃ r, r ∈ l ∧ resolve_period_for t l = some r) := by
  cases l with
  | nil => simp [resolve_period_for]
  | cons f rest =>
    have hex : ∃ r, r ∈ (f :: rest) ∧ resolve_period_for t (f :: rest) = some r := by
      rcases hsc : scanContain t (f :: rest) with _ | r
      · by_cases h1 : t < f.start
        · exact ⟨f, List.mem_cons_self f rest, by simp [resolve_period_for, hsc, h1]⟩
        · by_cases h2 : ((f :: rest).getLast (List.cons_ne_nil f rest)).«end» ≤ t
          · exact ⟨_, List.getLast_mem (List.cons_ne_nil f rest),
              by simp [resolve_period_for, hsc, h1, h2]⟩
          · rcases hsg : scanGap t (f :: rest) with _ | r
            · exact ⟨_, List.getLast_mem (List.cons_ne_nil f rest),
                by simp [resolve_period_for, hsc, h1, h2, hsg]⟩
            · exact ⟨r, scanGap_mem hsg, by simp [resolve_period_for, hsc, h1, h2, hsg]⟩
      · exact ⟨r, scanContain_mem hsc, by simp [resolve_period_for, hsc]⟩
    refine ⟨⟨fun h => ?_, fun h => by simp at h⟩, fun _ => hex⟩
    rcases hex with ⟨r, _, hr⟩
    rw [h] at hr
    cases hr

theorem resolve_none_iff_witness :
    ((resolve_period_for 100 ([] : List PeriodRec) = none) ∧
      resolve_period_for 100 [(⟨1, 10, 20⟩ : PeriodRec)] ≠ none) ∧
    ((⟨1, 10, 20⟩ : PeriodRec) :: []) ≠ [] ∧
    (∃ r, r ∈ [(⟨1, 10, 20⟩ : PeriodRec)] ∧
      resolve_period_for 100 [(⟨1, 10, 20⟩ : PeriodRec)] = some r) :=
  ⟨⟨((resolve_none_iff 100 ([] : List PeriodRec)).1).mpr rfl, by
      intro h
      exact absurd (((resolve_none_iff 100 [(⟨1, 10, 20⟩ : PeriodRec)]).1).mp h)
        (by decide)⟩,
    by decide,
    (resolve_none_iff 100 [(⟨1, 10, 20⟩ : PeriodRec)]).2 (by decide)⟩

/-! ## Splitting on a separator character -/

theorem splitOnChar_ne_nil (sep : Char) (l : List Char) : splitOnChar sep l ≠ [] := by
  cases l with
  | nil => simp [splitOnChar]
  | cons c cs =>
    by_cases h : c = sep
    · simp [splitOnChar, h]
    · simp only [splitOnChar, if_neg h]
      rcases hs : splitOnChar sep cs with _ | ⟨t, ts⟩ <;> simp

theorem splitOnChar_of_not_mem {sep : Char} {l : List Char} (h : sep ∉ l) :
    splitOnChar sep l = [l] := by
  induction l with
  | nil => rfl
  | cons c cs ih =>
    have hc : ¬ c = sep := fun he => h (he ▸ List.mem_cons_self c cs)
    have hcs : sep ∉ cs := fun hm => h (List.mem_cons_of_mem c hm)
    simp only [splitOnChar, if_neg hc, ih hcs]

theorem splitOnChar_append {sep : Char} {a : List Char} (b : List Char) (h : sep ∉ a) :
    splitOnChar sep (a ++ sep :: b) = a :: splitOnChar sep b := by
  induction a with
  | nil => simp [splitOnChar]
  | cons c cs ih =>
    have hc : ¬ c = sep := fun he => h (he ▸ List.mem_cons_self c cs)
    have hcs : sep ∉ cs := fun hm => h (List.mem_cons_of_mem c hm)
    simp [splitOnChar, hc, ih hcs]

theorem splitOnChar_one {sep : Char} {l a : List Char}
    (h : splitOnChar sep l = [a]) : l = a ∧ sep ∉ a := by
  induction l generalizing a with
  | nil =>
    simp only [splitOnChar, List.cons.injEq] at h
    obtain ⟨h1, -⟩ := h
    subst h1
    exact ⟨rfl, List.not_mem_nil sep⟩
  | cons c cs ih =>
    by_cases hc : c = sep
    · rw [show splitOnChar sep (c :: cs) = [] :: splitOnChar sep cs by
        simp [splitOnChar, hc]] at h
      have := splitOnChar_ne_nil sep cs
      simp only [List.cons.injEq] at h
      exact absurd h.2 this
    · rcases hs : splitOnChar sep cs with _ | ⟨t, ts⟩
      · exact absurd hs (splitOnChar_ne_nil sep cs)
      · rw [show splitOnChar sep (c :: cs) = (c :: t) :: ts by
          simp [splitOnChar, hc, hs]] at h
        simp only [List.cons.injEq] at h
        obtain ⟨ha, hts⟩ := h
        obtain ⟨hcs, hmem⟩ := ih (a := t) (by rw [hs, hts])
        subst ha hcs
        refine ⟨rfl, ?_⟩
        intro hm
        rcases List.mem_cons.mp hm with he | hm2
        · exact hc he.symm
        · exact hmem hm2

theorem splitOnChar_two {sep : Char} {l a b : List Char}
    (h : splitOnChar sep l = [a, b]) : l = a ++ sep :: b ∧ sep ∉ a ∧ sep ∉ b := by
  induction l generalizing a with
  | nil => simp [splitOnChar] at h
  | cons c cs ih =>
    by_cases hc : c = sep
    · rw [show splitOnChar sep (c :: cs) = [] :: splitOnChar sep cs by
        simp [splitOnChar, hc]] at h
      simp only [List.cons.injEq] at h
      obtain ⟨ha, hcs⟩ := h
      obtain ⟨hb, hmb⟩ := splitOnChar_one hcs
      subst ha hb
      subst hc
      exact ⟨rfl, List.not_mem_nil _, hmb⟩
    · rcases hs : splitOnChar sep cs with _ | ⟨t, ts⟩
      · exact absurd hs (splitOnChar_ne_nil sep cs)
      · rw [show splitOnChar sep (c :: cs) = (c :: t) :: ts by
          simp [splitOnChar, hc, hs]] at h
        simp only [List.cons.injEq] at h
        obtain ⟨ha, hts⟩ := h
        obtain ⟨hdec, hma, hmb⟩ := ih (a := t) (by rw [hs, hts])
        subst ha hdec
        refine ⟨rfl, ?_, hmb⟩
        intro hm
        rcases List.mem_cons.mp hm with he | hm2
        · exact hc he.symm
        · exact hma hm2

theorem splitOnChar_three {sep : Char} {l a b c : List Char}
    (h : splitOnChar sep l = [a, b, c]) :
    l = a ++ sep :: (b ++ sep :: c) ∧ sep ∉ a ∧ sep ∉ b ∧ sep ∉ c := by
  induction l generalizing a with
  | nil => simp [splitOnChar] at h
  | cons x xs ih =>
    by_cases hx : x = sep
    · rw [show splitOnChar sep (x :: xs) = [] :: splitOnChar sep xs by
        simp [splitOnChar, hx]] at h
      simp only [List.cons.injEq] at h
      obtain ⟨ha, hxs⟩ := h
      obtain ⟨hdec, hmb, hmc⟩ := splitOnChar_two hxs
      subst ha hdec
      subst hx
      exact ⟨rfl, List.not_mem_nil _, hmb, hmc⟩
    · rcases hs : splitOnChar sep xs with _ | ⟨t, ts⟩
      · exact absurd hs (splitOnChar_ne_nil sep xs)
      · rw [show splitOnChar sep (x :: xs) = (x :: t) :: ts by
          simp [splitOnChar, hx, hs]] at h
        simp only [List.cons.injEq] at h
        obtain ⟨ha, hts⟩ := h
        obtain ⟨hdec, hma, hmb, hmc⟩ := ih (a := t) (by rw [hs, hts])
        subst ha hdec
        refine ⟨rfl, ?_, hmb, hmc⟩
        intro hm
        rcases List.mem_cons.mp hm with he | hm2
        · exact hx he.symm
        · exact hma hm2

/-! ## Digit tokens -/

theorem isDigit_iff {c : Char} : isDigit c = true ↔ 48 ≤ c.toNat ∧ c.toNat ≤ 57 := by
  simp [isDigit]

theorem not_mem_of_digits {sep : Char} (hsep : isDigit sep = false) {l : List Char}
    (hd : ∀ c ∈ l, isDigit c = true) : sep ∉ l := by
  intro hm
  rw [hd sep hm] at hsep
  cases hsep

theorem digitChar_facts : ∀ m : Nat, m < 10 →
    isDigit (Nat.digitChar m) = true ∧ isSpace (Nat.digitChar m) = false ∧
    Nat.digitChar m ≠ 'T' ∧ (Nat.digitChar m).toNat - 48 = m := by decide

theorem decVal_append_digit (l : List Char) (c : Char) :
    decVal (l ++ [c]) = 10 * decVal l + (c.toNat - 48) := by
  simp [decVal, List.foldl_append]

theorem decVal_lt {l : List Char} (hd : ∀ c ∈ l, isDigit c = true) :
    decVal l < 10 ^ l.length := by
  suffices h : ∀ a, List.foldl (fun a c => 10 * a + (c.toNat - 48)) a l + 1 ≤
      (a + 1) * 10 ^ l.length by
    have := h 0
    simp only [decVal]
    omega
  induction l with
  | nil => intro a; simp [decVal]
  | cons c cs ih =>
    intro a
    have hc := (isDigit_iff.mp (hd c (List.mem_cons_self c cs)))
    have hcs : ∀ x ∈ cs, isDigit x = true := fun x hx => hd x (List.mem_cons_of_mem c hx)
    have h1 := ih hcs (10 * a + (c.toNat - 48))
    simp only [List.foldl_cons, List.length_cons]
    have h2 : (10 * a + (c.toNat - 48) + 1) * 10 ^ cs.length ≤
        (a + 1) * 10 ^ (cs.length + 1) := by
      have h3 : 10 * a + (c.toNat - 48) + 1 ≤ 10 * (a + 1) := by omega
      calc (10 * a + (c.toNat - 48) + 1) * 10 ^ cs.length
          ≤ 10 * (a + 1) * 10 ^ cs.length := Nat.mul_le_mul_right _ h3
        _ = (a + 1) * 10 ^ (cs.length + 1) := by ring
    exact le_trans h1 h2

theorem tokRange_eq_some_iff {lo hi : Nat} {l : List Char} {v : Nat} :
    tokRange lo hi l = some v ↔ RTok lo hi l ∧ v = decVal l := by
  unfold tokRange RTok
  split
  next hcond =>
    simp only [Bool.and_eq_true, Bool.or_eq_true, decide_eq_true_eq,
      List.all_eq_true] at hcond
    simp only [Option.some.injEq]
    constructor
    · rintro rfl
      exact ⟨⟨hcond.1.1.1, hcond.1.1.2, hcond.1.2, hcond.2⟩, rfl⟩
    · rintro ⟨_, rfl⟩; rfl
  next hcond =>
    simp only [Bool.and_eq_true, Bool.or_eq_true, decide_eq_true_eq,
      List.all_eq_true] at hcond
    constructor
    · rintro ⟨⟩
    · rintro ⟨⟨h1, h2, h3, h4⟩, rfl⟩
      exact absurd ⟨⟨⟨h1, h2⟩, h3⟩, h4⟩ hcond

theorem decVal_zeros_left (n : Nat) (l : List Char) :
    decVal (List.replicate n '0' ++ l) = decVal l := by
  have h0 : List.foldl (fun a c => 10 * a + (c.toNat - 48)) 0 (List.replicate n '0') = 0 := by
    induction n with
    | zero => rfl
    | succ k ih =>
      rw [List.replicate_succ, List.foldl_cons]
      have he : 10 * 0 + ('0'.toNat - 48) = 0 := by decide
      rw [he]
      exact ih
  simp [decVal, List.foldl_append, h0]

theorem zfill_of_digits {w : Nat} {l : List Char}
    (hd : ∀ c ∈ l, isDigit c = true) :
    zfill w l = List.replicate (w - l.length) '0' ++ l := by
  cases l with
  | nil => simp [zfill]
  | cons a as =>
    have hP : ¬ (a = '+' ∨ a = '-') := by
      rintro (rfl | rfl)
      · exact absurd (hd _ (List.mem_cons_self _ _)) (by decide)
      · exact absurd (hd _ (List.mem_cons_self _ _)) (by decide)
    have hb : (a = '+' || a = '-') = false := by
      simp only [Bool.or_eq_false_iff, decide_eq_false_iff_not]
      exact ⟨fun h => hP (Or.inl h), fun h => hP (Or.inr h)⟩
    simp [zfill, hb]

theorem mem_zfill {w : Nat} {l : List Char} {c : Char}
    (h : c ∈ zfill w l) : c = '0' ∨ c ∈ l := by
  cases l with
  | nil =>
    simp only [zfill, List.mem_replicate] at h
    exact Or.inl h.2
  | cons a as =>
    simp only [zfill] at h
    by_cases hb : (a = '+' || a = '-') = true
    · rw [if_pos hb] at h
      rcases List.mem_cons.mp h with rfl | h2
      · exact Or.inr (List.mem_cons_self _ _)
      · rcases List.mem_append.mp h2 with h3 | h3
        · exact Or.inl (List.mem_replicate.mp h3).2
        · exact Or.inr (List.mem_cons_of_mem _ h3)
    · rw [if_neg hb] at h
      rcases List.mem_append.mp h with h3 | h3
      · exact Or.inl (List.mem_replicate.mp h3).2
      · exact Or.inr h3

theorem not_mem_cons_append {x sep : Char} {a b : List Char}
    (ha : x ∉ a) (hs : ¬ x = sep) (hb : x ∉ b) : x ∉ a ++ sep :: b := by
  intro hm
  rcases List.mem_append.mp hm with h | h
  · exact ha h
  · rcases List.mem_cons.mp h with h | h
    · exact hs h
    · exact hb h

theorem tok4Year_eq_some_iff {l : List Char} {v : Nat} :
    tok4Year l = some v ↔ YearTok l ∧ v = decVal l := by
  unfold tok4Year YearTok
  split
  next hcond =>
    simp only [Bool.and_eq_true, decide_eq_true_eq, List.all_eq_true] at hcond
    simp only [Option.some.injEq]
    constructor
    · rintro rfl
      exact ⟨⟨hcond.1.1, hcond.1.2, hcond.2⟩, rfl⟩
    · rintro ⟨_, rfl⟩; rfl
  next hcond =>
    simp only [Bool.and_eq_true, decide_eq_true_eq, List.all_eq_true] at hcond
    constructor
    · rintro ⟨⟩
    · rintro ⟨⟨h1, h2, h3⟩, rfl⟩
      exact absurd ⟨⟨h1, h2⟩, h3⟩ hcond

/-! ## Characterizations of the format matchers -/

theorem matchTimeHM_some {l : List Char} {h mi s : Nat}
    (hm : matchTimeHM l = some (h, mi, s)) : TimeHMShape l h mi ∧ s = 0 := by
  unfold matchTimeHM at hm
  split at hm
  next hTok miTok heq =>
    split at hm
    next h' mi' e1 e2 =>
      injection hm with hv
      injection hv with h1 hv2
      injection hv2 with h2 h3
      obtain ⟨hd, -, -⟩ := splitOnChar_two heq
      obtain ⟨hr1, he1⟩ := tokRange_eq_some_iff.mp e1
      obtain ⟨hr2, he2⟩ := tokRange_eq_some_iff.mp e2
      subst h1 h2
      exact ⟨⟨hTok, miTok, hd, hr1, hr2, he1, he2⟩, h3.symm⟩
    next e3 => cases hm
  next e4 => cases hm

theorem matchTimeHM_of_shape {l : List Char} {h mi : Nat}
    (hs : TimeHMShape l h mi) : matchTimeHM l = some (h, mi, 0) := by
  obtain ⟨hTok, miTok, heq, hr1, hr2, hv1, hv2⟩ := hs
  subst heq hv1 hv2
  have hm1 : ':' ∉ hTok := not_mem_of_digits (by decide) hr1.2.1
  have hm2 : ':' ∉ miTok := not_mem_of_digits (by decide) hr2.2.1
  have hsp : splitOnChar ':' (hTok ++ ':' :: miTok) = [hTok, miTok] := by
    rw [splitOnChar_append miTok hm1, splitOnChar_of_not_mem hm2]
  have e1 : tokRange 0 23 hTok = some (decVal hTok) :=
    tokRange_eq_some_iff.mpr ⟨hr1, rfl⟩
  have e2 : tokRange 0 59 miTok = some (decVal miTok) :=
    tokRange_eq_some_iff.mpr ⟨hr2, rfl⟩
  simp [matchTimeHM, hsp, e1, e2]

theorem matchTimeHMS_some {l : List Char} {h mi s : Nat}
    (hm : matchTimeHMS l = some (h, mi, s)) : TimeHMSShape l h mi s := by
  unfold matchTimeHMS at hm
  split at hm
  next hTok miTok sTok heq =>
    split at hm
    next h' mi' s' e1 e2 e3 =>
      injection hm with hv
      injection hv with h1 hv2
      injection hv2 with h2 h3
      obtain ⟨hd, -, -, -⟩ := splitOnChar_three heq
      obtain ⟨hr1, he1⟩ := tokRange_eq_some_iff.mp e1
      obtain ⟨hr2, he2⟩ := tokRange_eq_some_iff.mp e2
      obtain ⟨hr3, he3⟩ := tokRange_eq_some_iff.mp e3
      subst h1 h2 h3
      exact ⟨hTok, miTok, sTok, hd, hr1, hr2, hr3, he1, he2, he3⟩
    next e4 => cases hm
  next e5 => cases hm

theorem matchTimeHMS_of_shape {l : List Char} {h mi s : Nat}
    (hs : TimeHMSShape l h mi s) : matchTimeHMS l = some (h, mi, s) := by
  obtain ⟨hTok, miTok, sTok, heq, hr1, hr2, hr3, hv1, hv2, hv3⟩ := hs
  subst heq hv1 hv2 hv3
  have hm1 : ':' ∉ hTok := not_mem_of_digits (by decide) hr1.2.1
  have hm2 : ':' ∉ miTok := not_mem_of_digits (by decide) hr2.2.1
  have hm3 : ':' ∉ sTok := not_mem_of_digits (by decide) hr3.2.1
  have hsp : splitOnChar ':' (hTok ++ ':' :: (miTok ++ ':' :: sTok)) =
      [hTok, miTok, sTok] := by
    rw [splitOnChar_append _ hm1, splitOnChar_append _ hm2,
      splitOnChar_of_not_mem hm3]
  have e1 : tokRange 0 23 hTok = some (decVal hTok) :=
    tokRange_eq_some_iff.mpr ⟨hr1, rfl⟩
  have e2 : tokRange 0 59 miTok = some (decVal miTok) :=
    tokRange_eq_some_iff.mpr ⟨hr2, rfl⟩
  have e3 : tokRange 0 59 sTok = some (decVal sTok) :=
    tokRange_eq_some_iff.mpr ⟨hr3, rfl⟩
  simp [matchTimeHMS, hsp, e1, e2, e3]

theorem matchTimeHMSF_some {l : List Char} {h mi s : Nat}
    (hm : matchTimeHMSF l = some (h, mi, s)) : TimeHMSFShape l h mi s := by
  unfold matchTimeHMSF at hm
  split at hm
  next hTok miTok sf heq =>
    split at hm
    next sTok fTok heq2 =>
      split at hm
      next hfrac =>
        split at hm
        next h' mi' s' e1 e2 e3 =>
          injection hm with hv
          injection hv with h1 hv2
          injection hv2 with h2 h3
          obtain ⟨hd, -, -, -⟩ := splitOnChar_three heq
          obtain ⟨hd2, -, -⟩ := splitOnChar_two heq2
          obtain ⟨hr1, he1⟩ := tokRange_eq_some_iff.mp e1
          obtain ⟨hr2, he2⟩ := tokRange_eq_some_iff.mp e2
          obtain ⟨hr3, he3⟩ := tokRange_eq_some_iff.mp e3
          simp only [Bool.and_eq_true, decide_eq_true_eq, List.all_eq_true] at hfrac
          subst h1 h2 h3 hd2
          exact ⟨hTok, miTok, sTok, fTok, hd, hr1, hr2, hr3,
            ⟨hfrac.1.1, hfrac.1.2, hfrac.2⟩, he1, he2, he3⟩
        next e4 => cases hm
      next hfrac => cases hm
    next e5 => cases hm
  next e6 => cases hm

theorem matchTimeHMSF_of_shape {l : List Char} {h mi s : Nat}
    (hs : TimeHMSFShape l h mi s) : matchTimeHMSF l = some (h, mi, s) := by
  obtain ⟨hTok, miTok, sTok, fTok, heq, hr1, hr2, hr3, hf, hv1, hv2, hv3⟩ := hs
  subst heq hv1 hv2 hv3
  have hm1 : ':' ∉ hTok := not_mem_of_digits (by decide) hr1.2.1
  have hm2 : ':' ∉ miTok := not_mem_of_digits (by decide) hr2.2.1
  have hm3 : ':' ∉ sTok := not_mem_of_digits (by decide) hr3.2.1
  have hm4 : ':' ∉ fTok := not_mem_of_digits (by decide) hf.2.2
  have hm5 : ':' ∉ sTok ++ '.' :: fTok := not_mem_cons_append hm3 (by decide) hm4
  have hsp : splitOnChar ':' (hTok ++ ':' :: (miTok ++ ':' :: (sTok ++ '.' :: fTok))) =
      [hTok, miTok, sTok ++ '.' :: fTok] := by
    rw [splitOnChar_append _ hm1, splitOnChar_append _ hm2,
      splitOnChar_of_not_mem hm5]
  have hd1 : '.' ∉ sTok := not_mem_of_digits (by decide) hr3.2.1
  have hd2 : '.' ∉ fTok := not_mem_of_digits (by decide) hf.2.2
  have hsp2 : splitOnChar '.' (sTok ++ '.' :: fTok) = [sTok, fTok] := by
    rw [splitOnChar_append _ hd1, splitOnChar_of_not_mem hd2]
  have hcond : (1 ≤ fTok.length && fTok.length ≤ 6 && fTok.all isDigit) = true := by
    simp only [Bool.and_eq_true, decide_eq_true_eq, List.all_eq_true]
    exact ⟨⟨hf.1, hf.2.1⟩, hf.2.2⟩
  have e1 : tokRange 0 23 hTok = some (decVal hTok) :=
    tokRange_eq_some_iff.mpr ⟨hr1, rfl⟩
  have e2 : tokRange 0 59 miTok = some (decVal miTok) :=
    tokRange_eq_some_iff.mpr ⟨hr2, rfl⟩
  have e3 : tokRange 0 59 sTok = some (decVal sTok) :=
    tokRange_eq_some_iff.mpr ⟨hr3, rfl⟩
  simp [matchTimeHMSF, hsp, hsp2, hcond, e1, e2, e3]

theorem matchDate_some {l : List Char} {y mo d : Nat}
    (hm : matchDate l = some (y, mo, d)) : DateShape l y mo d := by
  unfold matchDate at hm
  split at hm
  next yTok moTok dTok heq =>
    split at hm
    next y' mo' e1 e2 =>
      split at hm
      next d' e3 =>
        injection hm with hv
        injection hv with h1 hv2
        injection hv2 with h2 h3
        obtain ⟨hd, -, -, -⟩ := splitOnChar_three heq
        obtain ⟨hr1, he1⟩ := tok4Year_eq_some_iff.mp e1
        obtain ⟨hr2, he2⟩ := tokRange_eq_some_iff.mp e2
        obtain ⟨hr3, he3⟩ := tokRange_eq_some_iff.mp e3
        subst h1 h2 h3
        subst he1 he2
        exact ⟨yTok, moTok, dTok, hd, hr1, hr2, hr3, rfl, rfl, he3⟩
      next e4 => cases hm
    next e5 => cases hm
  next e6 => cases hm

theorem matchDate_of_shape {l : List Char} {y mo d : Nat}
    (hs : DateShape l y mo d) : matchDate l = some (y, mo, d) := by
  obtain ⟨yTok, moTok, dTok, heq, hr1, hr2, hr3, hv1, hv2, hv3⟩ := hs
  subst heq hv1 hv2 hv3
  have hm1 : '-' ∉ yTok := not_mem_of_digits (by decide) hr1.2.1
  have hm2 : '-' ∉ moTok := not_mem_of_digits (by decide) hr2.2.1
  have hm3 : '-' ∉ dTok := not_mem_of_digits (by decide) hr3.2.1
  have hsp : splitOnChar '-' (yTok ++ '-' :: (moTok ++ '-' :: dTok)) =
      [yTok, moTok, dTok] := by
    rw [splitOnChar_append _ hm1, splitOnChar_append _ hm2,
      splitOnChar_of_not_mem hm3]
  have e1 : tok4Year yTok = some (decVal yTok) :=
    tok4Year_eq_some_iff.mpr ⟨hr1, rfl⟩
  have e2 : tokRange 1 12 moTok = some (decVal moTok) :=
    tokRange_eq_some_iff.mpr ⟨hr2, rfl⟩
  have e3 : tokRange 1 (daysInMonth (decVal yTok) (decVal moTok)) dTok =
      some (decVal dTok) := tokRange_eq_some_iff.mpr ⟨hr3, rfl⟩
  simp [matchDate, hsp, e1, e2, e3]

/-! ## What `_parse_hhmm_or_hhmmss` accepts -/

theorem mem_zfill_of_mem {w : Nat} {l : List Char} {c : Char}
    (h : c ∈ l) : c ∈ zfill w l := by
  cases l with
  | nil => cases h
  | cons a as =>
    simp only [zfill]
    by_cases hb : (a = '+' || a = '-') = true
    · rw [if_pos hb]
      rcases List.mem_cons.mp h with rfl | hm
      · exact List.mem_cons_self _ _
      · exact List.mem_cons_of_mem _ (List.mem_append_right _ hm)
    · rw [if_neg hb]
      exact List.mem_append_right _ h

theorem ztok_of_rtok {hi : Nat} {a : List Char} (hr : RTok 0 hi a) : ZTok hi a := by
  refine ⟨?_, hr.2.1, hr.2.2.2⟩
  rcases hr.1 with h | h <;> omega

theorem ztok_of_rtok_zfill {hi : Nat} {a : List Char}
    (hr : RTok 0 hi (zfill 2 a)) : ZTok hi a := by
  have hda : ∀ c ∈ a, isDigit c = true := fun c hc => hr.2.1 c (mem_zfill_of_mem hc)
  have hz : zfill 2 a = List.replicate (2 - a.length) '0' ++ a := zfill_of_digits hda
  refine ⟨?_, hda, ?_⟩
  · have hlen := hr.1
    rw [hz] at hlen
    simp only [List.length_append, List.length_replicate] at hlen
    omega
  · have hval := hr.2.2.2
    rw [hz, decVal_zeros_left] at hval
    exact hval

theorem rtok_zfill_of_ztok {hi : Nat} {a : List Char} (hz : ZTok hi a) :
    RTok 0 hi (zfill 2 a) := by
  have he : zfill 2 a = List.replicate (2 - a.length) '0' ++ a := zfill_of_digits hz.2.1
  rw [he]
  refine ⟨?_, ?_, Nat.zero_le _, ?_⟩
  · simp only [List.length_append, List.length_replicate]
    have := hz.1
    omega
  · intro c hc
    rcases List.mem_append.mp hc with h | h
    · have h0 := (List.mem_replicate.mp h).2
      subst h0; decide
    · exact hz.2.1 c h
  · rw [decVal_zeros_left]
    exact hz.2.2

theorem decVal_zfill {a : List Char} (hd : ∀ c ∈ a, isDigit c = true) :
    decVal (zfill 2 a) = decVal a := by
  rw [zfill_of_digits hd, decVal_zeros_left]

theorem accepted_of_parseCore_some {l : List Char} {v : Nat}
    (h : parseCore l = some v) : AcceptedTime l := by
  unfold parseCore at h
  split at h
  next t e1 =>
    rcases Option.map_eq_some'.mp e1 with ⟨⟨h', mi', s'⟩, hm, -⟩
    obtain ⟨⟨hTok, miTok, hd, hr1, hr2, -, -⟩, -⟩ := matchTimeHM_some hm
    exact Or.inr ⟨hTok, miTok, hd, ztok_of_rtok hr1, ztok_of_rtok hr2⟩
  next e1 =>
    split at h
    next t e2 =>
      rcases Option.map_eq_some'.mp e2 with ⟨⟨h', mi', s'⟩, hm, -⟩
      obtain ⟨hTok, miTok, sTok, hd, hr1, hr2, hr3, -, -, -⟩ := matchTimeHMS_some hm
      exact Or.inl ⟨hTok, miTok, sTok, hd, hr1, hr2, hr3⟩
    next e2 =>
      split at h
      next a b heq =>
        rcases Option.map_eq_some'.mp h with ⟨⟨h', mi', s'⟩, hm, -⟩
        obtain ⟨⟨hTok, miTok, hd, hr1, hr2, -, -⟩, -⟩ := matchTimeHM_some hm
        obtain ⟨hl, hna, hnb⟩ := splitOnChar_two heq
        -- the two decompositions of `zfill 2 a ++ ':' :: zfill 2 b` agree
        have hza : ':' ∉ zfill 2 a := by
          intro hmem
          rcases mem_zfill hmem with h0 | h0
          · cases h0
          · exact hna h0
        have hzb : ':' ∉ zfill 2 b := by
          intro hmem
          rcases mem_zfill hmem with h0 | h0
          · cases h0
          · exact hnb h0
        have hsp1 : splitOnChar ':' (zfill 2 a ++ ':' :: zfill 2 b) =
            [zfill 2 a, zfill 2 b] := by
          rw [splitOnChar_append _ hza, splitOnChar_of_not_mem hzb]
        have hma : ':' ∉ hTok := not_mem_of_digits (by decide) hr1.2.1
        have hmb : ':' ∉ miTok := not_mem_of_digits (by decide) hr2.2.1
        have hsp2 : splitOnChar ':' (zfill 2 a ++ ':' :: zfill 2 b) =
            [hTok, miTok] := by
          rw [hd, splitOnChar_append _ hma, splitOnChar_of_not_mem hmb]
        rw [hsp1] at hsp2
        injection hsp2 with h1 h2
        injection h2 with h2 h3
        subst h1 h2
        exact Or.inr ⟨a, b, hl, ztok_of_rtok_zfill hr1, ztok_of_rtok_zfill hr2⟩
      next e3 => cases h

theorem parseCore_isSome_of_accepted {l : List Char} (ha : AcceptedTime l) :
    ∃ v, parseCore l = some v := by
  rcases ha with ⟨hTok, miTok, sTok, hd, hr1, hr2, hr3⟩ | ⟨a, b, hd, hz1, hz2⟩
  · subst hd
    have hmhms : matchTimeHMS (hTok ++ ':' :: (miTok ++ ':' :: sTok)) =
        some (decVal hTok, decVal miTok, decVal sTok) :=
      matchTimeHMS_of_shape ⟨hTok, miTok, sTok, rfl, hr1, hr2, hr3, rfl, rfl, rfl⟩
    have hm1 : ':' ∉ hTok := not_mem_of_digits (by decide) hr1.2.1
    have hm2 : ':' ∉ miTok := not_mem_of_digits (by decide) hr2.2.1
    have hm3 : ':' ∉ sTok := not_mem_of_digits (by decide) hr3.2.1
    have hsp : splitOnChar ':' (hTok ++ ':' :: (miTok ++ ':' :: sTok)) =
        [hTok, miTok, sTok] := by
      rw [splitOnChar_append _ hm1, splitOnChar_append _ hm2,
        splitOnChar_of_not_mem hm3]
    have hmhm : matchHM (hTok ++ ':' :: (miTok ++ ':' :: sTok)) = none := by
      simp [matchHM, matchTimeHM, hsp]
    have hms2 : matchHMS (hTok ++ ':' :: (miTok ++ ':' :: sTok)) =
        some (timeOfHMS (decVal hTok) (decVal miTok) (decVal sTok)) := by
      simp [matchHMS, hmhms]
    exact ⟨timeOfHMS (decVal hTok) (decVal miTok) (decVal sTok),
      by simp [parseCore, hmhm, hms2]⟩
  · subst hd
    have hma : ':' ∉ a := not_mem_of_digits (by decide) hz1.2.1
    have hmb : ':' ∉ b := not_mem_of_digits (by decide) hz2.2.1
    have hsp : splitOnChar ':' (a ++ ':' :: b) = [a, b] := by
      rw [splitOnChar_append _ hma, splitOnChar_of_not_mem hmb]
    have hrza : RTok 0 23 (zfill 2 a) := rtok_zfill_of_ztok hz1
    have hrzb : RTok 0 59 (zfill 2 b) := rtok_zfill_of_ztok hz2
    have hmz : matchTimeHM (zfill 2 a ++ ':' :: zfill 2 b) =
        some (decVal (zfill 2 a), decVal (zfill 2 b), 0) :=
      matchTimeHM_of_shape ⟨zfill 2 a, zfill 2 b, rfl, hrza, hrzb, rfl, rfl⟩
    have hmz2 : matchHM (zfill 2 a ++ ':' :: zfill 2 b) =
        some (timeOfHMS (decVal (zfill 2 a)) (decVal (zfill 2 b)) 0) := by
      simp [matchHM, hmz]
    rcases e1 : matchHM (a ++ ':' :: b) with _ | v
    · rcases e2 : matchHMS (a ++ ':' :: b) with _ | v2
      · exact ⟨timeOfHMS (decVal (zfill 2 a)) (decVal (zfill 2 b)) 0,
          by simp [parseCore, e1, e2, hsp, hmz2]⟩
      · exact ⟨v2, by simp [parseCore, e1, e2]⟩
    · exact ⟨v, by simp [parseCore, e1]⟩

/-- C7 (amended): `_parse_hhmm_or_hhmmss` fails (raises the
`FormatError`) exactly on the texts that, after trimming, are not of an
accepted time shape — where the accepted shapes are the spec's
`hour:minute` / `hour:minute:second` (fields 1-2 digits, in range) AND
additionally any two-component text whose components are at most two
digits and may be empty: the zfill fallback pads each side of the
single colon to two characters, so `:`, `5:` and `:5` also parse. -/
theorem parse_time_none_iff (x : Option String) :
    parse_hhmm_or_hhmmss x = none ↔ ¬ AcceptedTime (pyStrip (x.getD "").data) := by
  unfold parse_hhmm_or_hhmmss
  constructor
  · intro hn hacc
    rcases parseCore_isSome_of_accepted hacc with ⟨v, hv⟩
    rw [hn] at hv
    cases hv
  · intro hna
    rcases he : parseCore (pyStrip (x.getD "").data) with _ | v
    · rfl
    · exact absurd (accepted_of_parseCore_some he) hna

/-- C7 counterexample: the text `":"` does not denote a time in
`hour:minute` or `hour:minute:second` form (both components are empty),
yet `_parse_hhmm_or_hhmmss` succeeds on it, returning midnight — the
claim that every non-matching text fails is false. -/
theorem parse_time_colon_cex :
    ¬ TimeShape (pyStrip (String.data ":")) ∧
    parse_hhmm_or_hhmmss (some ":") = some 0 := by
  constructor
  · intro hs
    have hps : pyStrip (String.data ":") = [':'] := rfl
    rw [hps] at hs
    rcases hs with ⟨h, m, heq, hh, -⟩ | ⟨h, m, s, heq, hh, -, -⟩
    · have hlen := congrArg List.length heq
      simp only [List.length_append, List.length_cons, List.length_nil] at hlen
      rcases hh.1 with h1 | h1 <;> omega
    · have hlen := congrArg List.length heq
      simp only [List.length_append, List.length_cons, List.length_nil] at hlen
      omega
  · rfl

theorem parse_time_none_iff_witness :
    (parse_hhmm_or_hhmmss (some "25:99") = none ∧
      ¬ AcceptedTime (pyStrip ((Option.some "25:99").getD "").data)) ∧
    parse_hhmm_or_hhmmss none = none ∧ parse_hhmm_or_hhmmss (some "") = none := by
  have hna : ¬ AcceptedTime (pyStrip ((Option.some "25:99").getD "").data) := by
    have hps : pyStrip ((Option.some "25:99").getD "").data =
        ['2', '5', ':', '9', '9'] := rfl
    rw [hps]
    rintro (⟨h, m, s, heq, hh, hm, hs2⟩ | ⟨a, b, heq, hza, hzb⟩)
    · have hm1 : ':' ∉ h := not_mem_of_digits (by decide) hh.2.1
      have hm2 : ':' ∉ m := not_mem_of_digits (by decide) hm.2.1
      have hm3 : ':' ∉ s := not_mem_of_digits (by decide) hs2.2.1
      have hsp : splitOnChar ':' (['2', '5', ':', '9', '9'] : List Char) =
          [h, m, s] := by
        rw [heq, splitOnChar_append _ hm1, splitOnChar_append _ hm2,
          splitOnChar_of_not_mem hm3]
      have hsp2 : splitOnChar ':' (['2', '5', ':', '9', '9'] : List Char) =
          [['2', '5'], ['9', '9']] := rfl
      rw [hsp2] at hsp
      cases hsp
    · have hm1 : ':' ∉ a := not_mem_of_digits (by decide) hza.2.1
      have hm2 : ':' ∉ b := not_mem_of_digits (by decide) hzb.2.1
      have hsp : splitOnChar ':' (['2', '5', ':', '9', '9'] : List Char) =
          [a, b] := by
        rw [heq, splitOnChar_append _ hm1, splitOnChar_of_not_mem hm2]
      have hsp2 : splitOnChar ':' (['2', '5', ':', '9', '9'] : List Char) =
          [['2', '5'], ['9', '9']] := rfl
      rw [hsp2] at hsp
      injection hsp with h1 h2
      subst h1
      have hv := hza.2.2
      simp [decVal] at hv
  have hnil : ∀ x : Option String, pyStrip ((x.getD "")).data = [] →
      ¬ AcceptedTime (pyStrip ((x.getD "")).data) := by
    intro x hps
    rw [hps]
    rintro (⟨h, m, s, heq, -, -, -⟩ | ⟨a, b, heq, -, -⟩) <;>
    · have hlen := congrArg List.length heq
      simp only [List.length_append, List.length_cons, List.length_nil] at hlen
      omega
  exact ⟨⟨(parse_time_none_iff (some "25:99")).mpr hna, hna⟩,
    (parse_time_none_iff none).mpr (hnil none rfl),
    (parse_time_none_iff (some "")).mpr (hnil (some "") rfl)⟩

/-! ## Splitting a datetime string at its whitespace -/

theorem takeWhile_append_all {p : Char → Bool} {d : List Char} (rest : List Char)
    (hd : ∀ c ∈ d, p c = true) :
    (d ++ rest).takeWhile p = d ++ rest.takeWhile p := by
  induction d with
  | nil => simp
  | cons c cs ih =>
    have hc := hd c (List.mem_cons_self c cs)
    simp only [List.cons_append, List.takeWhile_cons_of_pos hc]
    rw [ih (fun x hx => hd x (List.mem_cons_of_mem c hx))]

theorem dropWhile_append_all {p : Char → Bool} {d : List Char} (rest : List Char)
    (hd : ∀ c ∈ d, p c = true) :
    (d ++ rest).dropWhile p = rest.dropWhile p := by
  induction d with
  | nil => simp
  | cons c cs ih =>
    have hc := hd c (List.mem_cons_self c cs)
    simp only [List.cons_append, List.dropWhile_cons_of_pos hc]
    exact ih (fun x hx => hd x (List.mem_cons_of_mem c hx))

theorem splitOnWs_of_decomp {d w t : List Char}
    (hd : ∀ c ∈ d, isSpace c = false) (hw : WsRun w)
    (htne : t ≠ []) (ht : ∀ c ∈ t, isSpace c = false) :
    splitOnWs (d ++ w ++ t) = some (d, t) := by
  obtain ⟨hwne, hwsp⟩ := hw
  have hd' : ∀ c ∈ d, (!(isSpace c)) = true := fun c hc => by rw [hd c hc]; rfl
  have ht' : ∀ c ∈ t, (!(isSpace c)) = true := fun c hc => by rw [ht c hc]; rfl
  rcases w with _ | ⟨cw, w'⟩
  · exact absurd rfl hwne
  rcases t with _ | ⟨ct, t'⟩
  · exact absurd rfl htne
  have hcw : isSpace cw = true := hwsp cw (List.mem_cons_self _ _)
  have hct : isSpace ct = false := ht ct (List.mem_cons_self _ _)
  have hw' : ∀ c ∈ w', isSpace c = true := fun c hc => hwsp c (List.mem_cons_of_mem _ hc)
  have e1 : ((d ++ (cw :: w')) ++ (ct :: t')).takeWhile (fun c => !(isSpace c)) = d := by
    rw [List.append_assoc, takeWhile_append_all _ hd', List.cons_append,
      List.takeWhile_cons_of_neg (by simp [hcw])]
    simp
  have e2 : ((d ++ (cw :: w')) ++ (ct :: t')).dropWhile (fun c => !(isSpace c)) =
      cw :: (w' ++ ct :: t') := by
    rw [List.append_assoc, dropWhile_append_all _ hd', List.cons_append,
      List.dropWhile_cons_of_neg (by simp [hcw])]
  have e3 : (cw :: (w' ++ ct :: t')).takeWhile isSpace = cw :: w' := by
    rw [List.takeWhile_cons_of_pos hcw, takeWhile_append_all _ hw',
      List.takeWhile_cons_of_neg (by simp [hct])]
    simp
  have e4 : (cw :: (w' ++ ct :: t')).dropWhile isSpace = ct :: t' := by
    rw [List.dropWhile_cons_of_pos hcw, dropWhile_append_all _ hw',
      List.dropWhile_cons_of_neg (by simp [hct])]
  have hcond : (!(cw :: w').isEmpty && !(ct :: t').isEmpty &&
      (ct :: t').all fun c => !(isSpace c)) = true := by
    simp only [Bool.and_eq_true, Bool.not_eq_true', List.isEmpty_eq_false,
      List.all_eq_true]
    exact ⟨⟨List.cons_ne_nil _ _, List.cons_ne_nil _ _⟩, ht⟩
  simp only [splitOnWs]
  rw [e1, e2, e3, e4, if_pos hcond]

theorem splitOnWs_some {l d t : List Char} (h : splitOnWs l = some (d, t)) :
    ∃ w, l = d ++ w ++ t ∧ WsRun w ∧ (∀ c ∈ d, isSpace c = false) ∧
      t ≠ [] ∧ ∀ c ∈ t, isSpace c = false := by
  simp only [splitOnWs] at h
  split at h
  next hcond =>
    simp only [Bool.and_eq_true, Bool.not_eq_true', List.isEmpty_eq_false,
      List.all_eq_true] at hcond
    obtain ⟨⟨hwne, htne⟩, hta⟩ := hcond
    simp only [Option.some.injEq, Prod.mk.injEq] at h
    obtain ⟨rfl, rfl⟩ := h
    refine ⟨(l.dropWhile (fun c => !(isSpace c))).takeWhile isSpace, ?_, ⟨hwne, ?_⟩, ?_, htne, ?_⟩
    · rw [List.append_assoc, List.takeWhile_append_dropWhile,
        List.takeWhile_append_dropWhile]
    · intro c hc
      exact List.mem_takeWhile_imp hc
    · intro c hc
      have := List.mem_takeWhile_imp hc
      simpa using this
    · intro c hc
      have := hta c hc
      simpa using this
  next hcond => cases h

/-! ## The full datetime matcher -/

theorem not_space_of_digit {c : Char} (h : isDigit c = true) : isSpace c = false := by
  by_contra hs
  rw [Bool.not_eq_false] at hs
  simp only [isSpace, Bool.or_eq_true, decide_eq_true_eq] at hs
  rcases hs with ((((rfl | rfl) | rfl) | rfl) | rfl) | rfl <;> exact absurd h (by decide)

theorem dateShape_no_space {dp : List Char} {y mo d : Nat}
    (h : DateShape dp y mo d) : ∀ c ∈ dp, isSpace c = false := by
  obtain ⟨yTok, moTok, dTok, heq, hY, hMo, hD, -, -, -⟩ := h
  subst heq
  intro c hc
  rcases List.mem_append.mp hc with h1 | h1
  · exact not_space_of_digit (hY.2.1 c h1)
  · rcases List.mem_cons.mp h1 with rfl | h1
    · decide
    · rcases List.mem_append.mp h1 with h2 | h2
      · exact not_space_of_digit (hMo.2.1 c h2)
      · rcases List.mem_cons.mp h2 with rfl | h2
        · decide
        · exact not_space_of_digit (hD.2.1 c h2)

theorem timeShape_no_space {tp : List Char} {h mi s : Nat}
    (ht : (TimeHMShape tp h mi ∧ s = 0) ∨ TimeHMSShape tp h mi s ∨
      TimeHMSFShape tp h mi s) :
    tp ≠ [] ∧ ∀ c ∈ tp, isSpace c = false := by
  rcases ht with ⟨⟨hTok, miTok, heq, h1, h2, -, -⟩, -⟩ |
    ⟨hTok, miTok, sTok, heq, h1, h2, h3, -, -, -⟩ |
    ⟨hTok, miTok, sTok, fTok, heq, h1, h2, h3, h4, -, -, -⟩
  · subst heq
    constructor
    · intro h0
      rcases List.append_eq_nil.mp h0 with ⟨-, h5⟩
      cases h5
    · intro c hc
      rcases List.mem_append.mp hc with hcc | hcc
      · exact not_space_of_digit (h1.2.1 c hcc)
      · rcases List.mem_cons.mp hcc with rfl | hcc
        · decide
        · exact not_space_of_digit (h2.2.1 c hcc)
  · subst heq
    constructor
    · intro h0
      rcases List.append_eq_nil.mp h0 with ⟨-, h5⟩
      cases h5
    · intro c hc
      rcases List.mem_append.mp hc with hcc | hcc
      · exact not_space_of_digit (h1.2.1 c hcc)
      · rcases List.mem_cons.mp hcc with rfl | hcc
        · decide
        · rcases List.mem_append.mp hcc with hcc2 | hcc2
          · exact not_space_of_digit (h2.2.1 c hcc2)
          · rcases List.mem_cons.mp hcc2 with rfl | hcc2
            · decide
            · exact not_space_of_digit (h3.2.1 c hcc2)
  · subst heq
    constructor
    · intro h0
      rcases List.append_eq_nil.mp h0 with ⟨-, h5⟩
      cases h5
    · intro c hc
      rcases List.mem_append.mp hc with hcc | hcc
      · exact not_space_of_digit (h1.2.1 c hcc)
      · rcases List.mem_cons.mp hcc with rfl | hcc
        · decide
        · rcases List.mem_append.mp hcc with hcc2 | hcc2
          · exact not_space_of_digit (h2.2.1 c hcc2)
          · rcases List.mem_cons.mp hcc2 with rfl | hcc2
            · decide
            · rcases List.mem_append.mp hcc2 with hcc3 | hcc3
              · exact not_space_of_digit (h3.2.1 c hcc3)
              · rcases List.mem_cons.mp hcc3 with rfl | hcc3
                · decide
                · exact not_space_of_digit (h4.2.2 c hcc3)

theorem matchDT_eq_some {tm : List Char → Option (Nat × Nat × Nat)} {l : List Char}
    {y mo d h mi s : Nat} (hm : matchDT tm l = some (y, mo, d, h, mi, s)) :
    ∃ dp w tp, l = dp ++ w ++ tp ∧ WsRun w ∧ DateShape dp y mo d ∧
      tm tp = some (h, mi, s) := by
  unfold matchDT at hm
  split at hm
  next dPart tPart heq =>
    split at hm
    next y' mo' d' h' mi' s' e1 e2 =>
      simp only [Option.some.injEq, Prod.mk.injEq] at hm
      obtain ⟨rfl, rfl, rfl, rfl, rfl, rfl⟩ := hm
      obtain ⟨w, hdec, hw, -, -, -⟩ := splitOnWs_some heq
      exact ⟨dPart, w, tPart, hdec, hw, matchDate_some e1, e2⟩
    next e3 => cases hm
  next heq => cases hm

theorem matchDT_of_parts {tm : List Char → Option (Nat × Nat × Nat)}
    {dp w tp : List Char} {y mo d h mi s : Nat}
    (hw : WsRun w) (hds : DateShape dp y mo d)
    (htne : tp ≠ []) (htns : ∀ c ∈ tp, isSpace c = false)
    (htm : tm tp = some (h, mi, s)) :
    matchDT tm (dp ++ w ++ tp) = some (y, mo, d, h, mi, s) := by
  have hsp := splitOnWs_of_decomp (dateShape_no_space hds) hw htne htns
  have hsp' : splitOnWs (dp ++ (w ++ tp)) = some (dp, tp) := by
    rw [← List.append_assoc]; exact hsp
  simp [matchDT, hsp', matchDate_of_shape hds, htm]

theorem matchDT_none_of_parts {tm : List Char → Option (Nat × Nat × Nat)}
    {dp w tp : List Char} {y mo d : Nat}
    (hw : WsRun w) (hds : DateShape dp y mo d)
    (htne : tp ≠ []) (htns : ∀ c ∈ tp, isSpace c = false)
    (htm : tm tp = none) :
    matchDT tm (dp ++ w ++ tp) = none := by
  have hsp := splitOnWs_of_decomp (dateShape_no_space hds) hw htne htns
  have hsp' : splitOnWs (dp ++ (w ++ tp)) = some (dp, tp) := by
    rw [← List.append_assoc]; exact hsp
  simp [matchDT, hsp', matchDate_of_shape hds, htm]

/-! ## Characterization of `normalize_ts` -/

theorem matchTimeHM_none_of_split3 {tp H Mi S : List Char}
    (hsp : splitOnChar ':' tp = [H, Mi, S]) : matchTimeHM tp = none := by
  simp [matchTimeHM, hsp]

theorem hms_split {tp : List Char} {h mi s : Nat} (hs : TimeHMSShape tp h mi s) :
    ∃ H Mi S, splitOnChar ':' tp = [H, Mi, S] := by
  obtain ⟨H, Mi, S, heq, h1, h2, h3, -, -, -⟩ := hs
  subst heq
  have hm1 : ':' ∉ H := not_mem_of_digits (by decide) h1.2.1
  have hm2 : ':' ∉ Mi := not_mem_of_digits (by decide) h2.2.1
  have hm3 : ':' ∉ S := not_mem_of_digits (by decide) h3.2.1
  exact ⟨H, Mi, S, by
    rw [splitOnChar_append _ hm1, splitOnChar_append _ hm2,
      splitOnChar_of_not_mem hm3]⟩

theorem hmsf_split {tp : List Char} {h mi s : Nat} (hs : TimeHMSFShape tp h mi s) :
    ∃ H Mi S F, splitOnChar ':' tp = [H, Mi, S ++ '.' :: F] ∧
      matchTimeHMS tp = none := by
  obtain ⟨H, Mi, S, F, heq, h1, h2, h3, h4, -, -, -⟩ := hs
  subst heq
  have hm1 : ':' ∉ H := not_mem_of_digits (by decide) h1.2.1
  have hm2 : ':' ∉ Mi := not_mem_of_digits (by decide) h2.2.1
  have hm3 : ':' ∉ S := not_mem_of_digits (by decide) h3.2.1
  have hm4 : ':' ∉ F := not_mem_of_digits (by decide) h4.2.2
  have hm5 : ':' ∉ S ++ '.' :: F := not_mem_cons_append hm3 (by decide) hm4
  have hsp : splitOnChar ':' (H ++ ':' :: (Mi ++ ':' :: (S ++ '.' :: F))) =
      [H, Mi, S ++ '.' :: F] := by
    rw [splitOnChar_append _ hm1, splitOnChar_append _ hm2,
      splitOnChar_of_not_mem hm5]
  refine ⟨H, Mi, S, F, hsp, ?_⟩
  have e3 : tokRange 0 59 (S ++ '.' :: F) = none := by
    rcases e : tokRange 0 59 (S ++ '.' :: F) with _ | v
    · rfl
    · obtain ⟨hr, -⟩ := tokRange_eq_some_iff.mp e
      exact absurd (hr.2.1 '.' (List.mem_append_right _ (List.mem_cons_self _ _)))
        (by decide)
  have e1 : tokRange 0 23 H = some (decVal H) := tokRange_eq_some_iff.mpr ⟨h1, rfl⟩
  have e2 : tokRange 0 59 Mi = some (decVal Mi) := tokRange_eq_some_iff.mpr ⟨h2, rfl⟩
  simp [matchTimeHMS, hsp, e1, e2, e3]

theorem decVal_le_of_year {yTok : List Char} (hY : YearTok yTok) :
    decVal yTok ≤ 9999 := by
  have h4 := decVal_lt hY.2.1
  rw [hY.1] at h4
  norm_num at h4
  omega

theorem dtShape_bounds {l : List Char} {y mo d h mi s : Nat}
    (hs : DTShape l y mo d h mi s) :
    1 ≤ y ∧ y ≤ 9999 ∧ 1 ≤ mo ∧ mo ≤ 12 ∧ 1 ≤ d ∧ d ≤ daysInMonth y mo ∧
      h ≤ 23 ∧ mi ≤ 59 ∧ s ≤ 59 := by
  obtain ⟨dp, w, tp, -, -, hds, htime⟩ := hs
  obtain ⟨yTok, moTok, dTok, -, hY, hMo, hD, hy, hmo, hd⟩ := hds
  subst hy hmo hd
  refine ⟨hY.2.2, decVal_le_of_year hY, hMo.2.2.1, hMo.2.2.2, hD.2.2.1, hD.2.2.2, ?_⟩
  rcases htime with ⟨⟨H, Mi, -, h1, h2, hh, hmi⟩, hs0⟩ |
    ⟨H, Mi, S, -, h1, h2, h3, hh, hmi, hsv⟩ |
    ⟨H, Mi, S, F, -, h1, h2, h3, -, hh, hmi, hsv⟩
  · subst hh hmi hs0
    exact ⟨h1.2.2.2, h2.2.2.2, by omega⟩
  · subst hh hmi hsv
    exact ⟨h1.2.2.2, h2.2.2.2, h3.2.2.2⟩
  · subst hh hmi hsv
    exact ⟨h1.2.2.2, h2.2.2.2, h3.2.2.2⟩

theorem normalize_ts_some {x : Option String} {out : String}
    (hn : normalize_ts x = some out) :
    ∃ str y mo d h mi s, x = some str ∧
      DTShape (preprocess str.data) y mo d h mi s ∧
      out = String.mk (fmtDT (y, mo, d, h, mi, s)) := by
  simp only [normalize_ts] at hn
  split at hn
  next => cases hn
  next str =>
    split at hn
    next heq => cases hn
    next hne =>
      split at hn
      next v e1 =>
        obtain ⟨y, mo, d, h, mi, s⟩ := v
        injection hn with hout
        obtain ⟨dp, w, tp, hdec, hw, hds, htm⟩ := matchDT_eq_some e1
        obtain ⟨hhm, hs0⟩ := matchTimeHM_some htm
        exact ⟨str, y, mo, d, h, mi, s, rfl,
          ⟨dp, w, tp, hdec, hw, hds, Or.inl ⟨hhm, hs0⟩⟩, hout.symm⟩
      next e1 =>
        split at hn
        next v e2 =>
          obtain ⟨y, mo, d, h, mi, s⟩ := v
          injection hn with hout
          obtain ⟨dp, w, tp, hdec, hw, hds, htm⟩ := matchDT_eq_some e2
          exact ⟨str, y, mo, d, h, mi, s, rfl,
            ⟨dp, w, tp, hdec, hw, hds, Or.inr (Or.inl (matchTimeHMS_some htm))⟩,
            hout.symm⟩
        next e2 =>
          split at hn
          next v e3 =>
            obtain ⟨y, mo, d, h, mi, s⟩ := v
            injection hn with hout
            obtain ⟨dp, w, tp, hdec, hw, hds, htm⟩ := matchDT_eq_some e3
            exact ⟨str, y, mo, d, h, mi, s, rfl,
              ⟨dp, w, tp, hdec, hw, hds, Or.inr (Or.inr (matchTimeHMSF_some htm))⟩,
              hout.symm⟩
          next e3 => cases hn

theorem normalize_ts_of_shape {str : String} {y mo d h mi s : Nat}
    (hs : DTShape (preprocess str.data) y mo d h mi s) :
    normalize_ts (some str) = some (String.mk (fmtDT (y, mo, d, h, mi, s))) := by
  obtain ⟨dp, w, tp, hdec, hw, hds, htime⟩ := hs
  have hne : ¬ str = "" := by
    intro h0
    have h1 : ([] : List Char) = dp ++ w ++ tp := by
      rw [h0] at hdec
      exact hdec
    have h2 := congrArg List.length h1
    simp only [List.length_append, List.length_nil] at h2
    have h3 : 0 < w.length := List.length_pos.mpr hw.1
    omega
  obtain ⟨htne, htns⟩ := timeShape_no_space htime
  simp only [normalize_ts, if_neg hne]
  rw [hdec]
  rcases htime with ⟨hhm, rfl⟩ | hhms | hhmsf
  · have h1 : matchDT matchTimeHM (dp ++ (w ++ tp)) = some (y, mo, d, h, mi, 0) := by
      rw [← List.append_assoc]
      exact matchDT_of_parts hw hds htne htns (matchTimeHM_of_shape hhm)
    simp [h1]
  · obtain ⟨H, Mi, S, hsp⟩ := hms_split hhms
    have hnone : matchTimeHM tp = none := matchTimeHM_none_of_split3 hsp
    have hDT1 : matchDT matchTimeHM (dp ++ (w ++ tp)) = none := by
      rw [← List.append_assoc]
      exact matchDT_none_of_parts hw hds htne htns hnone
    have hDT2 : matchDT matchTimeHMS (dp ++ (w ++ tp)) = some (y, mo, d, h, mi, s) := by
      rw [← List.append_assoc]
      exact matchDT_of_parts hw hds htne htns (matchTimeHMS_of_shape hhms)
    simp [hDT1, hDT2]
  · obtain ⟨H, Mi, S, F, hsp, hnone2⟩ := hmsf_split hhmsf
    have hnone : matchTimeHM tp = none := matchTimeHM_none_of_split3 hsp
    have hDT1 : matchDT matchTimeHM (dp ++ (w ++ tp)) = none := by
      rw [← List.append_assoc]
      exact matchDT_none_of_parts hw hds htne htns hnone
    have hDT2 : matchDT matchTimeHMS (dp ++ (w ++ tp)) = none := by
      rw [← List.append_assoc]
      exact matchDT_none_of_parts hw hds htne htns hnone2
    have hDT3 : matchDT matchTimeHMSF (dp ++ (w ++ tp)) = some (y, mo, d, h, mi, s) := by
      rw [← List.append_assoc]
      exact matchDT_of_parts hw hds htne htns (matchTimeHMSF_of_shape hhmsf)
    simp [hDT1, hDT2, hDT3]

theorem fmtYear_of_ge {y : Nat} (h : 1000 ≤ y) : fmtYear y = pad4 y := by
  unfold fmtYear
  rw [if_neg (by omega), if_neg (by omega), if_neg (by omega)]

/-! ## Claims about `normalize_ts` -/

/-- C8 (amended): for every input text that, after trimming whitespace
and replacing `'T'` by a space, matches one of the three accepted
datetime formats (the formats are mutually exclusive, so the first
match wins), `normalize_ts` returns the matched fields rendered through
`strftime("%Y-%m-%d %H:%M:%S")` with any fractional seconds discarded.
The platform `strftime` prints the year without zero padding, so the
output equals the canonical `YYYY-MM-DD HH:MM:SS` string exactly when
the matched year is at least 1000 (it is shorter for earlier years). -/
theorem normalize_shape_output (str : String) (y mo d h mi s : Nat)
    (hs : DTShape (preprocess str.data) y mo d h mi s) :
    normalize_ts (some str) = some (String.mk (fmtDT (y, mo, d, h, mi, s))) ∧
    (1000 ≤ y → fmtDT (y, mo, d, h, mi, s) = canonicalDT (y, mo, d, h, mi, s)) := by
  refine ⟨normalize_ts_of_shape hs, fun hy => ?_⟩
  simp [fmtDT, canonicalDT, fmtYear_of_ge hy]

theorem normalize_shape_output_witness :
    DTShape (preprocess (String.data "2025-04-08T08:50")) 2025 4 8 8 50 0 ∧
    normalize_ts (some "2025-04-08T08:50") = some "2025-04-08 08:50:00" ∧
    normalize_ts (some "2025-04-08 08:50:00.123456") = some "2025-04-08 08:50:00" := by
  have hshape1 : DTShape (preprocess (String.data "2025-04-08T08:50")) 2025 4 8 8 50 0 := by
    refine ⟨['2', '0', '2', '5', '-', '0', '4', '-', '0', '8'], [' '],
      ['0', '8', ':', '5', '0'], rfl, by decide, ?_, ?_⟩
    · exact ⟨['2', '0', '2', '5'], ['0', '4'], ['0', '8'], rfl, by decide, by decide,
        by decide, by decide, by decide, by decide⟩
    · exact Or.inl ⟨⟨['0', '8'], ['5', '0'], rfl, by decide, by decide, by decide,
        by decide⟩, rfl⟩
  have hshape2 : DTShape (preprocess (String.data "2025-04-08 08:50:00.123456"))
      2025 4 8 8 50 0 := by
    refine ⟨['2', '0', '2', '5', '-', '0', '4', '-', '0', '8'], [' '],
      ['0', '8', ':', '5', '0', ':', '0', '0', '.', '1', '2', '3', '4', '5', '6'],
      rfl, by decide, ?_, ?_⟩
    · exact ⟨['2', '0', '2', '5'], ['0', '4'], ['0', '8'], rfl, by decide, by decide,
        by decide, by decide, by decide, by decide⟩
    · exact Or.inr (Or.inr ⟨['0', '8'], ['5', '0'], ['0', '0'],
        ['1', '2', '3', '4', '5', '6'], rfl, by decide, by decide, by decide,
        by decide, by decide, by decide, by decide⟩)
  refine ⟨hshape1, ?_, ?_⟩
  · rw [(normalize_shape_output "2025-04-08T08:50" 2025 4 8 8 50 0 hshape1).1]
    rfl
  · rw [(normalize_shape_output "2025-04-08 08:50:00.123456" 2025 4 8 8 50 0 hshape2).1]
    rfl

/-- C8 counterexample: `"0999-04-08 08:50"` matches the first accepted
format with year 999, but the output is `"999-04-08 08:50:00"` — not
the canonical 19-character `YYYY-MM-DD HH:MM:SS` form the claim
promises, because the platform `strftime` does not zero-pad `%Y`. -/
theorem normalize_year_pad_cex :
    DTShape (preprocess (String.data "0999-04-08 08:50")) 999 4 8 8 50 0 ∧
    normalize_ts (some "0999-04-08 08:50") = some "999-04-08 08:50:00" ∧
    normalize_ts (some "0999-04-08 08:50") ≠
      some (String.mk (canonicalDT (999, 4, 8, 8, 50, 0))) := by
  refine ⟨?_, rfl, ?_⟩
  · refine ⟨['0', '9', '9', '9', '-', '0', '4', '-', '0', '8'], [' '],
      ['0', '8', ':', '5', '0'], rfl, by decide, ?_, ?_⟩
    · exact ⟨['0', '9', '9', '9'], ['0', '4'], ['0', '8'], rfl, by decide, by decide,
        by decide, by decide, by decide, by decide⟩
    · exact Or.inl ⟨⟨['0', '8'], ['5', '0'], rfl, by decide, by decide, by decide,
        by decide⟩, rfl⟩
  · intro h
    have h1 : normalize_ts (some "0999-04-08 08:50") = some "999-04-08 08:50:00" := rfl
    rw [h1] at h
    exact absurd h (by decide)

/-- C9: `normalize_ts` returns the absence value on an absent input, an
empty input, and every input matching none of the three accepted
datetime formats; the soft failure is an ordinary return value (the
embedding is a total function into `Option`, mirroring that the Python
code catches every `ValueError` and falls through to `return None`). -/
theorem normalize_soft_fail (x : Option String)
    (hx : x = none ∨ x = some "" ∨
      ∀ y mo d h mi s, ¬ DTShape (preprocess ((x.getD "").data)) y mo d h mi s) :
    normalize_ts x = none := by
  rcases he : normalize_ts x with _ | out
  · rfl
  · exfalso
    obtain ⟨str, y, mo, d, h, mi, s, hxs, hshape, -⟩ := normalize_ts_some he
    subst hxs
    rcases hx with h1 | h1 | h1
    · cases h1
    · injection h1 with h1
      subst h1
      obtain ⟨dp, w, tp, hdec, hw, -, -⟩ := hshape
      have h4 : preprocess ("" : String).data = [] := rfl
      rw [h4] at hdec
      have h2 := congrArg List.length hdec
      simp only [List.length_append, List.length_nil] at h2
      have h3 : 0 < w.length := List.length_pos.mpr hw.1
      omega
    · exact h1 y mo d h mi s hshape

theorem normalize_soft_fail_witness :
    normalize_ts (some "not-a-date") = none ∧ normalize_ts none = none ∧
      normalize_ts (some "") = none := by
  refine ⟨?_, normalize_soft_fail none (Or.inl rfl),
    normalize_soft_fail (some "") (Or.inr (Or.inl rfl))⟩
  apply normalize_soft_fail
  refine Or.inr (Or.inr ?_)
  intro y mo d h mi s hs
  obtain ⟨dp, w, tp, heq, ⟨hwne, hwsp⟩, -, -⟩ := hs
  rcases w with _ | ⟨c, w'⟩
  · exact hwne rfl
  · have hsp := hwsp c (List.mem_cons_self _ _)
    have hcmem : c ∈ preprocess ((Option.some "not-a-date").getD "").data := by
      rw [heq]
      exact List.mem_append_left _ (List.mem_append_right _ (List.mem_cons_self _ _))
    have hlist : preprocess ((Option.some "not-a-date").getD "").data =
        ['n', 'o', 't', '-', 'a', '-', 'd', 'a', 't', 'e'] := rfl
    rw [hlist] at hcmem
    fin_cases hcmem <;> exact absurd hsp (by decide)

/-! ## Round-tripping the canonical output (idempotence) -/

theorem pad2_digits {n : Nat} (h : n ≤ 99) :
    (∀ c ∈ pad2 n, isDigit c = true) ∧ decVal (pad2 n) = n ∧ (pad2 n).length = 2 := by
  have h1 : n / 10 < 10 := by omega
  have h2 : n % 10 < 10 := by omega
  obtain ⟨d1a, -, -, d1d⟩ := digitChar_facts (n / 10) h1
  obtain ⟨d2a, -, -, d2d⟩ := digitChar_facts (n % 10) h2
  refine ⟨?_, ?_, rfl⟩
  · intro c hc
    rcases List.mem_cons.mp hc with rfl | hc
    · exact d1a
    · rcases List.mem_cons.mp hc with rfl | hc
      · exact d2a
      · cases hc
  · simp only [pad2, decVal, List.foldl_cons, List.foldl_nil]
    rw [d1d, d2d]
    omega

theorem pad4_digits {n : Nat} (h : n ≤ 9999) :
    (∀ c ∈ pad4 n, isDigit c = true) ∧ decVal (pad4 n) = n ∧ (pad4 n).length = 4 := by
  have h1 : n / 1000 < 10 := by omega
  have h2 : n / 100 % 10 < 10 := by omega
  have h3 : n / 10 % 10 < 10 := by omega
  have h4 : n % 10 < 10 := by omega
  obtain ⟨d1a, -, -, d1d⟩ := digitChar_facts (n / 1000) h1
  obtain ⟨d2a, -, -, d2d⟩ := digitChar_facts (n / 100 % 10) h2
  obtain ⟨d3a, -, -, d3d⟩ := digitChar_facts (n / 10 % 10) h3
  obtain ⟨d4a, -, -, d4d⟩ := digitChar_facts (n % 10) h4
  refine ⟨?_, ?_, rfl⟩
  · intro c hc
    rcases List.mem_cons.mp hc with rfl | hc
    · exact d1a
    rcases List.mem_cons.mp hc with rfl | hc
    · exact d2a
    rcases List.mem_cons.mp hc with rfl | hc
    · exact d3a
    rcases List.mem_cons.mp hc with rfl | hc
    · exact d4a
    · cases hc
  · simp only [pad4, decVal, List.foldl_cons, List.foldl_nil]
    rw [d1d, d2d, d3d, d4d]
    omega

theorem fmtYear_length_le {y : Nat} (h : y < 1000) : (fmtYear y).length ≤ 3 := by
  unfold fmtYear
  by_cases h1 : y < 10
  · rw [if_pos h1]; simp
  · rw [if_neg h1]
    by_cases h2 : y < 100
    · rw [if_pos h2]; simp [pad2]
    · rw [if_neg h2, if_pos h]; simp

theorem pyStrip_eq_self {l : List Char}
    (h1 : ∀ c, l.head? = some c → isSpace c = false)
    (h2 : ∀ c, l.getLast? = some c → isSpace c = false) : pyStrip l = l := by
  have e1 : l.dropWhile isSpace = l := by
    cases l with
    | nil => rfl
    | cons a as => exact List.dropWhile_cons_of_neg (by simp [h1 a rfl])
  unfold pyStrip
  rw [e1]
  have e2 : l.reverse.dropWhile isSpace = l.reverse := by
    cases hr : l.reverse with
    | nil => rfl
    | cons b bs =>
      have hb : l.getLast? = some b := by
        rw [← List.head?_reverse, hr]
        rfl
      exact List.dropWhile_cons_of_neg (by simp [h2 b hb])
  rw [e2, List.reverse_reverse]

theorem map_noT {l : List Char} (h : ∀ c ∈ l, c ≠ 'T') :
    l.map (fun c => if c = 'T' then ' ' else c) = l := by
  induction l with
  | nil => rfl
  | cons c cs ih =>
    simp only [List.map_cons]
    rw [if_neg (h c (List.mem_cons_self _ _)),
      ih (fun x hx => h x (List.mem_cons_of_mem _ hx))]

/-- C10 (amended): `normalize_ts` is idempotent on every input for
which it either fails or returns a 19-character string — equivalently,
an input whose matched year is at least 1000, so that the output has a
4-digit year.  (For a matched year below 1000 the output's unpadded
year does not re-parse, so idempotence fails there; see the
counterexample.)  The absence value always propagates unchanged. -/
theorem normalize_idem_of_len (x : Option String)
    (hlen : ∀ out, normalize_ts x = some out → out.length = 19) :
    normalize_ts (normalize_ts x) = normalize_ts x := by
  rcases he : normalize_ts x with _ | out
  · rfl
  · obtain ⟨str, y, mo, d, h, mi, s, -, hshape, hout⟩ := normalize_ts_some he
    obtain ⟨hy1, hy2, hmo1, hmo2, hd1, hd2, hh, hmi, hs2⟩ := dtShape_bounds hshape
    have h19 := hlen out he
    subst hout
    have hflen : (fmtDT (y, mo, d, h, mi, s)).length = (fmtYear y).length + 15 := by
      have h0 : fmtDT (y, mo, d, h, mi, s) = fmtYear y ++ '-' :: pad2 mo ++ '-' ::
          pad2 d ++ ' ' :: pad2 h ++ ':' :: pad2 mi ++ ':' :: pad2 s := rfl
      rw [h0]
      simp only [List.length_append, List.length_cons, pad2, List.length_nil]
      try omega
    have h19' : (fmtYear y).length + 15 = 19 := by
      have hsl : (String.mk (fmtDT (y, mo, d, h, mi, s))).length =
          (fmtDT (y, mo, d, h, mi, s)).length := rfl
      rw [hsl, hflen] at h19
      exact h19
    have hy1000 : 1000 ≤ y := by
      by_contra hc
      push_neg at hc
      have := fmtYear_length_le hc
      omega
    have hfy : fmtYear y = pad4 y := fmtYear_of_ge hy1000
    have hd31 : daysInMonth y mo ≤ 31 := by
      unfold daysInMonth
      split
      · split <;> omega
      · split <;> omega
    have hexp : fmtDT (y, mo, d, h, mi, s) =
        [Nat.digitChar (y / 1000), Nat.digitChar (y / 100 % 10),
         Nat.digitChar (y / 10 % 10), Nat.digitChar (y % 10), '-',
         Nat.digitChar (mo / 10), Nat.digitChar (mo % 10), '-',
         Nat.digitChar (d / 10), Nat.digitChar (d % 10), ' ',
         Nat.digitChar (h / 10), Nat.digitChar (h % 10), ':',
         Nat.digitChar (mi / 10), Nat.digitChar (mi % 10), ':',
         Nat.digitChar (s / 10), Nat.digitChar (s % 10)] := by
      have h0 : fmtDT (y, mo, d, h, mi, s) = fmtYear y ++ '-' :: pad2 mo ++ '-' ::
          pad2 d ++ ' ' :: pad2 h ++ ':' :: pad2 mi ++ ':' :: pad2 s := rfl
      rw [h0, hfy]
      rfl
    have hhead : ∀ c, (fmtDT (y, mo, d, h, mi, s)).head? = some c →
        isSpace c = false := by
      intro c hc
      rw [hexp] at hc
      injection hc with hc
      subst hc
      exact (digitChar_facts (y / 1000) (by omega)).2.1
    have hlastc : ∀ c, (fmtDT (y, mo, d, h, mi, s)).getLast? = some c →
        isSpace c = false := by
      intro c hc
      rw [hexp] at hc
      injection hc with hc
      subst hc
      exact (digitChar_facts (s % 10) (by omega)).2.1
    have hpre : preprocess (String.mk (fmtDT (y, mo, d, h, mi, s))).data =
        fmtDT (y, mo, d, h, mi, s) := by
      show preprocess (fmtDT (y, mo, d, h, mi, s)) = fmtDT (y, mo, d, h, mi, s)
      unfold preprocess
      rw [pyStrip_eq_self hhead hlastc]
      apply map_noT
      intro c hc
      rw [hexp] at hc
      fin_cases hc <;>
        first
          | decide
          | exact (digitChar_facts _ (by omega)).2.2.1
    have hp4 := pad4_digits hy2
    have hpmo := pad2_digits (show mo ≤ 99 by omega)
    have hpd := pad2_digits (show d ≤ 99 by omega)
    have hph := pad2_digits (show h ≤ 99 by omega)
    have hpmi := pad2_digits (show mi ≤ 99 by omega)
    have hps := pad2_digits (show s ≤ 99 by omega)
    have hshape2 : DTShape (preprocess (String.mk (fmtDT (y, mo, d, h, mi, s))).data)
        y mo d h mi s := by
      rw [hpre]
      refine ⟨pad4 y ++ '-' :: (pad2 mo ++ '-' :: pad2 d), [' '],
        pad2 h ++ ':' :: (pad2 mi ++ ':' :: pad2 s), ?_, by decide, ?_, ?_⟩
      · have h0 : fmtDT (y, mo, d, h, mi, s) = fmtYear y ++ '-' :: pad2 mo ++ '-' ::
            pad2 d ++ ' ' :: pad2 h ++ ':' :: pad2 mi ++ ':' :: pad2 s := rfl
        rw [h0, hfy]
        rfl
      · exact ⟨pad4 y, pad2 mo, pad2 d, rfl,
          ⟨hp4.2.2, hp4.1, by rw [hp4.2.1]; exact hy1⟩,
          ⟨Or.inr hpmo.2.2, hpmo.1, by rw [hpmo.2.1]; exact hmo1,
            by rw [hpmo.2.1]; exact hmo2⟩,
          ⟨Or.inr hpd.2.2, hpd.1, by rw [hpd.2.1]; exact hd1,
            by rw [hpd.2.1]; exact hd2⟩,
          hp4.2.1.symm, hpmo.2.1.symm, hpd.2.1.symm⟩
      · exact Or.inr (Or.inl ⟨pad2 h, pad2 mi, pad2 s, rfl,
          ⟨Or.inr hph.2.2, hph.1, Nat.zero_le _, by rw [hph.2.1]; exact hh⟩,
          ⟨Or.inr hpmi.2.2, hpmi.1, Nat.zero_le _, by rw [hpmi.2.1]; exact hmi⟩,
          ⟨Or.inr hps.2.2, hps.1, Nat.zero_le _, by rw [hps.2.1]; exact hs2⟩,
          hph.2.1.symm, hpmi.2.1.symm, hps.2.1.symm⟩)
    exact normalize_ts_of_shape hshape2

theorem normalize_idem_of_len_witness :
    (∀ out, normalize_ts (some "2025-04-08T08:50") = some out → out.length = 19) ∧
    normalize_ts (normalize_ts (some "2025-04-08T08:50")) =
      normalize_ts (some "2025-04-08T08:50") := by
  have hl : ∀ out, normalize_ts (some "2025-04-08T08:50") = some out →
      out.length = 19 := by
    intro out h
    have h1 : normalize_ts (some "2025-04-08T08:50") = some "2025-04-08 08:50:00" := rfl
    rw [h1] at h
    injection h with h
    rw [← h]
    rfl
  exact ⟨hl, normalize_idem_of_len (some "2025-04-08T08:50") hl⟩

/-- C10 counterexample: on `"0999-04-08 08:50"` the first pass returns
`"999-04-08 08:50:00"`, whose 3-digit year no longer matches the
4-digit `%Y` field, so the second pass returns the absence value:
`normalize_ts` is not idempotent. -/
theorem normalize_idem_cex :
    normalize_ts (normalize_ts (some "0999-04-08 08:50")) ≠
      normalize_ts (some "0999-04-08 08:50") := by
  intro h
  have h1 : normalize_ts (some "0999-04-08 08:50") = some "999-04-08 08:50:00" := rfl
  rw [h1] at h
  have h2 : normalize_ts (some "999-04-08 08:50:00") = none := rfl
  rw [h2] at h
  cases h

end Aribaba
